import Mathlib

/-!
# wirelesstags: metrics retrieval and time bucketing

A shallow embedding of `api.go` and `sensor.go` of `stojg/wirelesstags`.

* Go's `int64` is `Int` together with `wrapInt64` at every operation that can
  leave the 64-bit range; `/` and `%` on Go integers truncate toward zero and
  are `Int.tdiv` and `Int.tmod`.
* `time.Time` is the pair (seconds since the Unix epoch, nanoseconds within the
  second) that `Time.Unix`, `Time.Before` and `Time.Add` of the Go standard
  library work on.
* Go maps are association lists whose lookup returns the first binding of a
  key and whose store overwrites that binding or appends a new one. They stand
  for maps made with `make`, as the results map of `Get` and the collections of
  `getMetrics` are; the nil map, which cannot be stored into, has no model.
* Strings are lists of characters; `float32` readings are carried as opaque
  bit patterns.
* `time.ParseInLocation` with the zone database is a parameter of the merge
  loop.
-/

namespace Wirelesstags

/-! ## Machine integers -/

/-- Two's complement wrap-around of a mathematical integer into `int64`. -/
def wrapInt64 (x : Int) : Int :=
  (x + 9223372036854775808) % 18446744073709551616 - 9223372036854775808

/-- The values an `int64` can hold. -/
def isInt64 (x : Int) : Prop :=
  -9223372036854775808 ≤ x ∧ x ≤ 9223372036854775807

instance (x : Int) : Decidable (isInt64 x) := by
  unfold isInt64; infer_instance

/-! ## `time.Time` -/

/-- A Go `time.Time` without monotonic clock reading: wall seconds since the
Unix epoch and the nanosecond within that second. -/
structure Time where
  sec : Int
  nsec : Int
  deriving DecidableEq, Repr

namespace Time

/-- Go `time.Unix(sec, nsec)`: an `nsec` outside `[0, 999999999]` is folded
into the seconds. -/
def unix (sec nsec : Int) : Time :=
  if nsec < 0 ∨ nsec ≥ 1000000000 then
    let n := nsec.tdiv 1000000000
    let sec1 := sec + n
    let nsec1 := nsec - n * 1000000000
    if nsec1 < 0 then ⟨sec1 - 1, nsec1 + 1000000000⟩ else ⟨sec1, nsec1⟩
  else ⟨sec, nsec⟩

/-- Go `Time.Unix()`: the seconds since the Unix epoch. -/
def Unix (t : Time) : Int := t.sec

/-- Go `Time.Before` for times without a monotonic clock reading. -/
def Before (t u : Time) : Bool :=
  decide (t.sec < u.sec) || (decide (t.sec = u.sec) && decide (t.nsec < u.nsec))

/-- Go `Time.Add(d)` for a duration `d` in nanoseconds. -/
def Add (t : Time) (d : Int) : Time :=
  let dsec := d.tdiv 1000000000
  let nsec := t.nsec + d.tmod 1000000000
  if nsec ≥ 1000000000 then ⟨t.sec + (dsec + 1), nsec - 1000000000⟩
  else if nsec < 0 then ⟨t.sec + (dsec - 1), nsec + 1000000000⟩
  else ⟨t.sec + dsec, nsec⟩

/-- The instant as a count of nanoseconds since the Unix epoch. -/
def nanos (t : Time) : Int := t.sec * 1000000000 + t.nsec

/-- The instant `m` milliseconds after the Unix epoch, as whole seconds and a
remainder of whole milliseconds. -/
def ofMillis (m : Int) : Time := ⟨m / 1000, (m % 1000) * 1000000⟩

end Time

/-! ## `windowsFileTime` (api.go) -/

/-- Go `time.Millisecond` and `time.Second` as `time.Duration` values. -/
def Millisecond : Int := 1000000
def Second : Int := 1000000000

/-- Offset between the Windows and the Unix epoch in milliseconds
(`116444736e+5` in the source). -/
def epochOffset : Int := 11644473600000

/-- Source `windowsFileTime`: 100ns intervals since 1601 to a `time.Time`. -/
def windowsFileTime (intervals : Int) : Time :=
  let ms := (intervals.tdiv 10).tdiv 1000
  let unix := wrapInt64 (Millisecond * wrapInt64 (ms - epochOffset))
  let sec := unix.tdiv Second
  let nsec := unix.tmod Second
  Time.unix sec nsec

/-- The tick counts whose Unix millisecond count, multiplied by
`time.Millisecond`, still fits an `int64` duration. -/
def ticksInRange (t : Int) : Prop :=
  -9223372036854 ≤ t.tdiv 10000 - epochOffset ∧ t.tdiv 10000 - epochOffset ≤ 9223372036854

instance (t : Int) : Decidable (ticksInRange t) := by
  unfold ticksInRange; infer_instance

/-! ## Go maps -/

/-- A Go map as an association list; a key is bound to the value of its first
entry. -/
abbrev GoMap (κ ν : Type) := List (κ × ν)

namespace GoMap

variable {κ ν : Type} [DecidableEq κ]

/-- Go `v, ok := m[k]`. -/
def find : GoMap κ ν → κ → Option ν
  | [], _ => none
  | (k1, v1) :: m, k => if k1 = k then some v1 else find m k

/-- Go `m[k] = v`. -/
def store : GoMap κ ν → κ → ν → GoMap κ ν
  | [], k, v => [(k, v)]
  | (k1, v1) :: m, k, v => if k1 = k then (k, v) :: m else (k1, v1) :: store m k v

/-- Keys of the entries, in entry order. -/
def keys (m : GoMap κ ν) : List κ := m.map Prod.fst

/-- Go `len(m)`. -/
def len (m : GoMap κ ν) : Nat := m.length

/-- Every key has one entry, as in every Go map. -/
def WF (m : GoMap κ ν) : Prop := (keys m).Nodup

end GoMap

/-! ## Metrics (api.go) -/

/-- Source `type metricType byte`. -/
abbrev metricType := Nat

def typeTemperature : metricType := 1
def typeLux : metricType := 2
def typeHumidity : metricType := 3
def typeMotion : metricType := 4
def typeBattery : metricType := 5
def typeSignal : metricType := 6

/-- Source `metricType.toAPI`. -/
def metricType.toAPI (m : metricType) : String :=
  if m = typeTemperature then "temperature"
  else if m = typeLux then "light"
  else if m = typeHumidity then "cap"
  else if m = typeMotion then "motion"
  else if m = typeBattery then "batteryVolt"
  else if m = typeSignal then "signal"
  else "unknown"

/-- Source `metricType.toName`. -/
def metricType.toName (m : metricType) : String :=
  if m = typeTemperature then "temperature"
  else if m = typeLux then "lux"
  else if m = typeHumidity then "humidity"
  else if m = typeMotion then "motion"
  else if m = typeBattery then "battery"
  else if m = typeSignal then "signal"
  else "unknown"

/-- A `float32` reading, held as its bit pattern: the code only copies it. -/
abbrev float32 := Nat

/-- Source `Metric`. -/
structure Metric where
  value : float32
  name : metricType
  deriving DecidableEq, Repr

/-- Source `MetricsCollection`: `map[int64][]*Metric`. -/
abbrev MetricsCollection := GoMap Int (List Metric)

/-- The results map of `Get`: `map[uint8]MetricsCollection`. -/
abbrev Results := GoMap Nat MetricsCollection

/-! ## Sensors (sensor.go) -/

/-- Source `Sensor`. -/
structure Sensor where
  Name : List Char
  Comment : List Char
  OutOfRange : Bool
  SlaveID : Nat
  TagType : Int
  LastComm : Int
  Metrics : MetricsCollection
  deriving DecidableEq

/-- Source `inArray`. -/
def inArray (needle : Int) : List Int → Bool
  | [] => false
  | v :: haystack => if needle = v then true else inArray needle haystack

def Sensor.hasMotionSensor (s : Sensor) : Bool := inArray s.TagType [12, 13, 21]

def Sensor.hasLightSensor (s : Sensor) : Bool := inArray s.TagType [26]

def Sensor.hasHTU (s : Sensor) : Bool := inArray s.TagType [13, 21, 52, 26, 72]

def Sensor.hasHumiditySensor (s : Sensor) : Bool := s.hasHTU

def Sensor.hasTempSensor (s : Sensor) : Bool := !inArray s.TagType [82, 92]

/-! ## `Client.Get`: the sensor loop and the calls it plans (api.go) -/

/-- The variables the sensor loop of `Get` updates. -/
structure GetState where
  since : Time
  temperatureTags : List Nat
  lightTags : List Nat
  humidityTags : List Nat
  deriving DecidableEq

/-- One iteration of `for _, t := range tags` in `Get`. -/
def getStep (st : GetState) (t : Sensor) : GetState :=
  let lastConn := windowsFileTime t.LastComm
  let since := if lastConn.Before st.since && !t.OutOfRange then lastConn else st.since
  let temperatureTags :=
    if t.hasTempSensor then st.temperatureTags ++ [t.SlaveID] else st.temperatureTags
  let lightTags := if t.hasLightSensor then st.lightTags ++ [t.SlaveID] else st.lightTags
  let humidityTags :=
    if t.hasHumiditySensor then st.humidityTags ++ [t.SlaveID] else st.humidityTags
  ⟨since, temperatureTags, lightTags, humidityTags⟩

/-- The sensor loop of `Get`, started with the caller's `since` and three nil
slices. -/
def sensorLoop (since : Time) (tags : List Sensor) : GetState :=
  tags.foldl getStep ⟨since, [], [], []⟩

/-- The `getMetrics` calls of `Get`, in source order. -/
def plannedCalls (st : GetState) : List (metricType × List Nat) :=
  [(typeTemperature, st.temperatureTags), (typeHumidity, st.humidityTags),
    (typeLux, st.lightTags)]

/-- The requests sent by a run of planned `getMetrics` calls: a call with
`len(ids) == 0` returns nil without a request, a call that sends one and
fails (`succeeds kind = false`) makes `Get` return. -/
def requestsOf (succeeds : metricType → Bool) : List (metricType × List Nat) →
    List (metricType × List Nat)
  | [] => []
  | (kind, ids) :: calls =>
    if ids.length = 0 then requestsOf succeeds calls
    else if succeeds kind then (kind, ids) :: requestsOf succeeds calls
    else [(kind, ids)]

/-- The requests `Get` sends for a sensor list. -/
def getRequests (succeeds : metricType → Bool) (since : Time) (tags : List Sensor) :
    List (metricType × List Nat) :=
  requestsOf succeeds (plannedCalls (sensorLoop since tags))

/-! ## `Client.getMetrics`: the merge loop (api.go) -/

/-- One element of `Stats` in the decoded response. -/
structure Stat where
  Date : List Char
  IDs : List Nat
  Values : List (List float32)
  TimeOfDay : List (List Nat)
  deriving DecidableEq

/-- How the merge loop ends: it returns nil, returns an error, or stops with
a run-time panic (index out of range). -/
inductive Outcome where
  | ok
  | error (msg : List Char)
  | panicked
  deriving DecidableEq, Repr

/-- Source `startDate.Add(time.Second * time.Duration(tod))`. -/
def sampleTime (startDate : Time) (tod : Nat) : Time :=
  startDate.Add (wrapInt64 (Second * (tod : Int)))

/-- Source `if _, ok := metrics[slaveID]; !ok { metrics[slaveID] = make(MetricsCollection) }`. -/
def ensureCollection (metrics : Results) (slaveID : Nat) : Results :=
  match GoMap.find metrics slaveID with
  | some _ => metrics
  | none => GoMap.store metrics slaveID []

/-- Go `metrics[slaveID]` read as a value: the nil map when the key is missing. -/
def collectionOf (metrics : Results) (slaveID : Nat) : MetricsCollection :=
  (GoMap.find metrics slaveID).getD []

/-- Go `metrics[slaveID][key]` read as a value: the nil slice when missing. -/
def bucketOf (metrics : Results) (slaveID : Nat) (key : Int) : List Metric :=
  (GoMap.find (collectionOf metrics slaveID) key).getD []

/-- The body of the sample loop for one sample that passed the `since` test:
create the collection of `slaveID` when missing, then
`metrics[slaveID][key] = append(metrics[slaveID][key], m)`. -/
def insertSample (metrics : Results) (slaveID : Nat) (key : Int) (m : Metric) : Results :=
  let metrics1 := ensureCollection metrics slaveID
  GoMap.store metrics1 slaveID
    (GoMap.store (collectionOf metrics1 slaveID) key (bucketOf metrics1 slaveID key ++ [m]))

/-- Go `for j := range stat.TimeOfDay[i]`: `tods` is what is left of the row
from index `j` on. -/
def mergeRow (startDate : Time) (slaveID : Nat) (mType : metricType) (since : Time)
    (stat : Stat) (i : Nat) : Nat → List Nat → Results → Outcome × Results
  | _, [], metrics => (Outcome.ok, metrics)
  | j, tod :: tods, metrics =>
    let timestamp := sampleTime startDate tod
    if timestamp.Before since then
      mergeRow startDate slaveID mType since stat i (j + 1) tods metrics
    else
      let metrics1 := ensureCollection metrics slaveID
      match (stat.Values[i]?).bind (fun row => row[j]?) with
      | none => (Outcome.panicked, metrics1)
      | some v =>
        mergeRow startDate slaveID mType since stat i (j + 1) tods
          (insertSample metrics slaveID timestamp.Unix ⟨v, mType⟩)

/-- Go `for i, slaveID := range stat.IDs`: `ids` is what is left of `stat.IDs`
from index `i` on. -/
def mergeStat (startDate : Time) (mType : metricType) (since : Time) (stat : Stat) :
    Nat → List Nat → Results → Outcome × Results
  | _, [], metrics => (Outcome.ok, metrics)
  | i, slaveID :: ids, metrics =>
    match stat.TimeOfDay[i]? with
    | none => (Outcome.panicked, metrics)
    | some row =>
      match mergeRow startDate slaveID mType since stat i 0 row metrics with
      | (Outcome.ok, metrics1) => mergeStat startDate mType since stat (i + 1) ids metrics1
      | r => r

/-- Go `for _, stat := range result["d"].Stats` of `getMetrics`. The parameter
`parseDate` is `time.ParseInLocation("1/2/2006", ·, auckland)`. -/
def mergeLoop (parseDate : List Char → Option Time) (mType : metricType) (since : Time) :
    List Stat → Results → Outcome × Results
  | [], metrics => (Outcome.ok, metrics)
  | stat :: stats, metrics =>
    match parseDate stat.Date with
    | none => (Outcome.error ("can't parse start date ".toList ++ stat.Date), metrics)
    | some startDate =>
      match mergeStat startDate mType since stat 0 stat.IDs metrics with
      | (Outcome.ok, metrics1) => mergeLoop parseDate mType since stats metrics1
      | r => r

/-- A sample listed in the response for identifier `id`: some stat group
whose date parses to `day` lists `id` at a position `i`, an offset `tod` and a
value `v` at a position `j` of row `i`; `key` is the Unix second of
`day + tod` and that instant is not before `since`. -/
def IsSample (parseDate : List Char → Option Time) (since : Time) (stats : List Stat)
    (id : Nat) (key : Int) (v : float32) : Prop :=
  ∃ stat ∈ stats, ∃ day, parseDate stat.Date = some day ∧
    ∃ i j tod : Nat, stat.IDs[i]? = some id ∧
      (stat.TimeOfDay[i]?).bind (fun row => row[j]?) = some tod ∧
      (stat.Values[i]?).bind (fun row => row[j]?) = some v ∧
      key = (sampleTime day tod).Unix ∧ (sampleTime day tod).Before since = false

/-- Every bucket key of the results map is the key of a sample listed in the
response for that identifier and not before `since`. -/
def KeysAreSamples (parseDate : List Char → Option Time) (since : Time) (stats : List Stat)
    (m : Results) : Prop :=
  ∀ id c key b, GoMap.find m id = some c → GoMap.find c key = some b →
    ∃ v, IsSample parseDate since stats id key v

/-- The results map `m2` keeps everything of `m1`: every identifier and
bucket of `m1` is in `m2`, and the old bucket is a prefix of the new one. -/
def Extends (m1 m2 : Results) : Prop :=
  ∀ id c1, GoMap.find m1 id = some c1 →
    ∃ c2, GoMap.find m2 id = some c2 ∧
      ∀ key b1, GoMap.find c1 key = some b1 →
        ∃ b2, GoMap.find c2 key = some b2 ∧ b1 <+: b2

/-- Every identifier has one collection and, in every collection, every
timestamp has one bucket. -/
def ResultsWF (m : Results) : Prop :=
  GoMap.WF m ∧ ∀ e ∈ m, GoMap.WF e.2

instance (m : Results) : Decidable (ResultsWF m) := by
  unfold ResultsWF GoMap.WF; infer_instance

/-! ## Strings and formatting (the parts of `strings` and `fmt` the code uses) -/

/-- Go `fmt` verb `%d` for an unsigned integer: its decimal digits. -/
def decimal (n : Nat) : List Char := Nat.toDigits 10 n

/-- Go `unicode.IsSpace`. -/
def isSpace (c : Char) : Bool :=
  let n := c.toNat
  n = 9 || n = 10 || n = 11 || n = 12 || n = 13 || n = 32 || n = 133 || n = 160 ||
    n = 5760 || (8192 ≤ n && n ≤ 8202) || n = 8232 || n = 8233 || n = 8239 || n = 8287 ||
    n = 12288

/-- Go `strings.Fields`, with the field being read in `cur`. -/
def fieldsAux : List Char → List Char → List (List Char)
  | cur, [] => if cur = [] then [] else [cur]
  | cur, c :: cs =>
    if isSpace c then
      if cur = [] then fieldsAux [] cs else cur :: fieldsAux [] cs
    else fieldsAux (cur ++ [c]) cs

/-- Go `strings.Fields(s)`: the maximal runs of non-space characters of `s`. -/
def stringsFields (s : List Char) : List (List Char) := fieldsAux [] s

/-- Go `strings.Join(elems, sep)`. -/
def stringsJoin : List (List Char) → List Char → List Char
  | [], _ => []
  | [a], _ => a
  | a :: b :: rest, sep => a ++ sep ++ stringsJoin (b :: rest) sep

/-- Go `strings.Split(s, sep)` for a separator of one character. -/
def stringsSplit (sep : Char) : List Char → List (List Char)
  | [] => [[]]
  | c :: cs =>
    if c = sep then [] :: stringsSplit sep cs
    else
      match stringsSplit sep cs with
      | [] => [[c]]
      | w :: ws => (c :: w) :: ws

/-- Go `strings.Trim(s, " ")`: leading and trailing spaces removed. -/
def stringsTrim (s : List Char) : List Char :=
  ((s.dropWhile (fun c => c = ' ')).reverse.dropWhile (fun c => c = ' ')).reverse

/-- The elements after the first in `fmt.Sprintf("%d", ids)`: each is written
after one space. -/
def sprintBytesRest : List Nat → List Char
  | [] => []
  | c :: cs => ' ' :: (decimal c ++ sprintBytesRest cs)

/-- Go `fmt.Sprintf("%d", ids)` for `ids []uint8`: `[`, the elements in
decimal with one space between two of them, `]`. -/
def sprintBytes : List Nat → List Char
  | [] => ['[', ']']
  | c :: cs => '[' :: (decimal c ++ sprintBytesRest cs ++ [']'])

/-- Source `getMultiTagStatsRawInput`; `IDs` is `none` for a nil slice, and
the field `Type` is `Type_` here. -/
structure getMultiTagStatsRawInput where
  IDs : Option (List Nat)
  Type_ : List Char
  FromDate : List Char
  ToDate : List Char
  deriving DecidableEq

/-- Source `getMultiTagStatsRawInput.MarshalJSON` (the error it returns is
always nil). -/
def MarshalJSON (t : getMultiTagStatsRawInput) : List Char :=
  let ids :=
    match t.IDs with
    | none => "null".toList
    | some l => stringsJoin (stringsFields (sprintBytes l)) ",".toList
  "\x7b\"ids\": ".toList ++ ids ++ ", \"type\": \"".toList ++ t.Type_ ++
    "\",\"fromDate\": \"".toList ++ t.FromDate ++ "\", \"toDate\": \"".toList ++ t.ToDate ++
    "\"\x7d".toList

/-- One iteration of `for _, extra := range extraLabels` in `Labels`. -/
def labelStep (labels : GoMap (List Char) (List Char)) (extra : List Char) :
    GoMap (List Char) (List Char) :=
  let keyValues := stringsSplit '=' extra
  match keyValues with
  | [k, v] => GoMap.store labels (stringsTrim k) (stringsTrim v)
  | _ => labels

/-- Source `Sensor.Labels`. -/
def Sensor.Labels (s : Sensor) : GoMap (List Char) (List Char) :=
  let labels := GoMap.store [] "name".toList s.Name
  let labels := GoMap.store labels "id".toList (decimal s.SlaveID)
  (stringsSplit ',' s.Comment).foldl labelStep labels

/-! ## Counting the samples of a response -/

/-- The decoded response keeps the shape of the wire format: as many rows of
offsets as identifiers, as many rows of values as rows of offsets, and in
every row as many values as offsets. -/
def Stat.wellFormed (stat : Stat) : Prop :=
  stat.IDs.length = stat.TimeOfDay.length ∧
    stat.TimeOfDay.map List.length = stat.Values.map List.length

instance (stat : Stat) : Decidable stat.wellFormed := by
  unfold Stat.wellFormed; infer_instance

/-- The Unix seconds of the samples of one row that are at or after `since`,
in row order. -/
def rowKeys (day since : Time) (tods : List Nat) : List Int :=
  (tods.filter (fun tod => !(sampleTime day tod).Before since)).map
    (fun tod => (sampleTime day tod).Unix)

/-- The Unix seconds of the samples of one stat group listed for identifier
`id` that are at or after `since`. -/
def statKeys (day since : Time) (id : Nat) : List Nat → List (List Nat) → List Int
  | sid :: ids, row :: rows =>
    (if sid = id then rowKeys day since row else []) ++ statKeys day since id ids rows
  | _, _ => []

/-- The Unix seconds of the samples of the response listed for identifier `id`
that are at or after `since`: one entry per sample. -/
def responseKeys (parseDate : List Char → Option Time) (since : Time) (id : Nat) :
    List Stat → List Int
  | [] => []
  | stat :: stats =>
    (match parseDate stat.Date with
      | some day => statKeys day since id stat.IDs stat.TimeOfDay
      | none => []) ++ responseKeys parseDate since id stats

/-- Adding a key to the keys of a Go map. -/
def addKey (ks : List Int) (k : Int) : List Int := if k ∈ ks then ks else ks ++ [k]

/-! # Properties -/

/-! ## Truncating division -/

theorem tdiv_of_nonneg {a b : Int} (ha : 0 ≤ a) (hb : 0 ≤ b) : a.tdiv b = a / b :=
  Int.tdiv_eq_ediv ha hb

theorem tdiv_of_neg {a b : Int} (ha : a < 0) (hb : 0 ≤ b) : a.tdiv b = -((-a) / b) := by
  have h := Int.neg_tdiv (-a) b
  rw [Int.neg_neg] at h
  rw [h, Int.tdiv_eq_ediv (by omega) hb]

theorem tmod_of_nonneg {a b : Int} (ha : 0 ≤ a) (hb : 0 ≤ b) : a.tmod b = a % b :=
  Int.tmod_eq_emod ha hb

theorem tmod_of_neg {a b : Int} (ha : a < 0) (hb : 0 ≤ b) : a.tmod b = -((-a) % b) := by
  rw [Int.tmod_def, tdiv_of_neg ha hb, Int.emod_def]
  rw [Int.mul_neg]
  omega

theorem tdiv_tdiv_ten_thousand (t : Int) : (t.tdiv 10).tdiv 1000 = t.tdiv 10000 := by
  rcases Int.lt_or_le t 0 with h | h
  · rw [tdiv_of_neg h (by decide), tdiv_of_neg h (by decide)]
    rcases Int.lt_or_le (-(-t / 10)) 0 with h1 | h1
    · rw [tdiv_of_neg h1 (by decide)]; omega
    · rw [tdiv_of_nonneg h1 (by decide)]; omega
  · rw [tdiv_of_nonneg h (by decide), tdiv_of_nonneg h (by decide),
      tdiv_of_nonneg (by omega) (by decide)]
    omega

theorem tdiv_mono_ten_thousand {a b : Int} (h : a ≤ b) : a.tdiv 10000 ≤ b.tdiv 10000 := by
  rcases Int.lt_or_le a 0 with ha | ha <;> rcases Int.lt_or_le b 0 with hb | hb
  · rw [tdiv_of_neg ha (by decide), tdiv_of_neg hb (by decide)]; omega
  · rw [tdiv_of_neg ha (by decide), tdiv_of_nonneg hb (by decide)]; omega
  · omega
  · rw [tdiv_of_nonneg ha (by decide), tdiv_of_nonneg hb (by decide)]; omega

theorem wrapInt64_of_isInt64 {x : Int} (h : isInt64 x) : wrapInt64 x = x := by
  unfold isInt64 at h
  unfold wrapInt64
  omega

/-! ## The epoch converter on the range of `time.Duration` -/

/-- Splitting a whole number of milliseconds, held as nanoseconds, the way
`windowsFileTime` does gives the seconds and the millisecond remainder. -/
theorem unix_split_millis (m : Int) :
    Time.unix ((Millisecond * m).tdiv Second) ((Millisecond * m).tmod Second)
      = Time.ofMillis m := by
  unfold Time.unix Time.ofMillis Millisecond Second
  rcases Int.lt_or_le m 0 with h | h
  · have hu : 1000000 * m < 0 := by omega
    rw [tdiv_of_neg hu (by decide), tmod_of_neg hu (by decide)]
    by_cases hz : -(-(1000000 * m) % 1000000000) < 0
    · have hn : -(-(1000000 * m) % 1000000000) < 0 ∨ -(-(1000000 * m) % 1000000000) ≥ 1000000000 :=
        Or.inl hz
      rw [if_pos hn]
      simp only []
      rw [tdiv_of_neg hz (by decide)]
      have h0 : -(-(-(1000000 * m) % 1000000000)) / 1000000000 = 0 := by omega
      rw [h0]
      simp only [Int.neg_zero, Int.add_zero, Int.zero_mul, Int.sub_zero]
      rw [if_pos hz]
      congr 1 <;> omega
    · have hn : ¬ (-(-(1000000 * m) % 1000000000) < 0 ∨ -(-(1000000 * m) % 1000000000) ≥ 1000000000) := by
        omega
      rw [if_neg hn]
      congr 1 <;> omega
  · have hu : 0 ≤ 1000000 * m := by omega
    rw [tdiv_of_nonneg hu (by decide), tmod_of_nonneg hu (by decide)]
    have hn : ¬ (1000000 * m % 1000000000 < 0 ∨ 1000000 * m % 1000000000 ≥ 1000000000) := by
      omega
    rw [if_neg hn]
    congr 1 <;> omega

/-- On tick counts whose millisecond count fits a `time.Duration`,
`windowsFileTime t` is the instant `t / 10000 - 11644473600000` milliseconds
after the Unix epoch. -/
theorem windowsFileTime_of_inRange (t : Int) (h : ticksInRange t) :
    windowsFileTime t = Time.ofMillis (t.tdiv 10000 - epochOffset) := by
  unfold ticksInRange at h
  unfold windowsFileTime
  simp only []
  rw [tdiv_tdiv_ten_thousand]
  have h1 : wrapInt64 (t.tdiv 10000 - epochOffset) = t.tdiv 10000 - epochOffset :=
    wrapInt64_of_isInt64 (by unfold isInt64; omega)
  rw [h1]
  have h2 : wrapInt64 (Millisecond * (t.tdiv 10000 - epochOffset))
      = Millisecond * (t.tdiv 10000 - epochOffset) :=
    wrapInt64_of_isInt64 (by unfold isInt64 Millisecond; omega)
  rw [h2]
  exact unix_split_millis _

theorem ofMillis_nanos (m : Int) : (Time.ofMillis m).nanos = m * 1000000 := by
  unfold Time.ofMillis Time.nanos
  simp only []
  omega

theorem ofMillis_before (a b : Int) : (Time.ofMillis a).Before (Time.ofMillis b) = decide (a < b) := by
  unfold Time.ofMillis Time.Before
  simp only []
  by_cases h : a < b
  · rw [decide_eq_true h]
    simp only [Bool.or_eq_true, Bool.and_eq_true, decide_eq_true_eq]
    omega
  · rw [decide_eq_false h]
    simp only [Bool.or_eq_false_iff, Bool.and_eq_false_iff, decide_eq_false_iff_not]
    omega

theorem ofMillis_inj (a b : Int) : Time.ofMillis a = Time.ofMillis b ↔ a = b := by
  constructor
  · intro h
    unfold Time.ofMillis at h
    injection h with h1 h2
    omega
  · intro h; rw [h]

/-- On the range of `time.Duration`, `windowsFileTime` is monotonic and two
tick counts give the same instant exactly when they truncate to the same
millisecond. -/
theorem windowsFileTime_mono_of_inRange (t1 t2 : Int) (h1 : ticksInRange t1)
    (h2 : ticksInRange t2) (hlt : t1 < t2) :
    (windowsFileTime t2).Before (windowsFileTime t1) = false ∧
      (windowsFileTime t1 = windowsFileTime t2 ↔ t1.tdiv 10000 = t2.tdiv 10000) := by
  rw [windowsFileTime_of_inRange t1 h1, windowsFileTime_of_inRange t2 h2, ofMillis_before,
    ofMillis_inj]
  have hm := tdiv_mono_ten_thousand (Int.le_of_lt hlt)
  constructor
  · rw [decide_eq_false_iff_not]; omega
  · omega

theorem windowsFileTime_mono_of_inRange_witness :
    (windowsFileTime 131557748239389584).Before (windowsFileTime 131557748239379584) = false ∧
      (windowsFileTime 131557748239379584 = windowsFileTime 131557748239389584 ↔
        (131557748239379584 : Int).tdiv 10000 = (131557748239389584 : Int).tdiv 10000) :=
  windowsFileTime_mono_of_inRange 131557748239379584 131557748239389584
    (by decide) (by decide) (by decide)

/-- The value of the repository's test `TestWindowFileTime`. -/
theorem windowsFileTime_test_value :
    windowsFileTime 131557748239379584 = Time.unix 1511301223 937000000 ∧
    windowsFileTime 131557748239379584 = ⟨1511301223, 937000000⟩ := by
  decide

/-- C1, evaluation at tick count 0 (1601-01-01): the millisecond count
-11644473600000 times `time.Millisecond` leaves the `int64` range and wraps,
and `windowsFileTime` returns second 6802270473 (year 2185) instead of the
instant -11644473600000 ms after the Unix epoch, second -11644473600. -/
theorem windowsFileTime_zero_wraps :
    isInt64 0 ∧
    windowsFileTime 0 = ⟨6802270473, 709551616⟩ ∧
    Time.ofMillis ((0 : Int).tdiv 10000 - epochOffset) = ⟨-11644473600, 0⟩ ∧
    windowsFileTime 0 ≠ Time.ofMillis ((0 : Int).tdiv 10000 - epochOffset) := by
  decide

/-- C2, evaluation: tick count 0 is less than tick count 131557748239379584,
both are `int64` values, yet `windowsFileTime` of the larger one is before
`windowsFileTime` of the smaller one. -/
theorem windowsFileTime_not_monotonic :
    (0 : Int) < 131557748239379584 ∧ isInt64 0 ∧ isInt64 131557748239379584 ∧
    (windowsFileTime 131557748239379584).Before (windowsFileTime 0) = true := by
  decide

/-! ## The watermark of `Get` -/

theorem before_iff (a b : Time) :
    a.Before b = true ↔ a.sec < b.sec ∨ (a.sec = b.sec ∧ a.nsec < b.nsec) := by
  unfold Time.Before
  simp only [Bool.or_eq_true, Bool.and_eq_true, decide_eq_true_eq]

theorem before_eq_false_iff (a b : Time) :
    a.Before b = false ↔ b.sec < a.sec ∨ (b.sec = a.sec ∧ b.nsec ≤ a.nsec) := by
  rw [← Bool.not_eq_true, before_iff]
  omega

theorem before_irrefl (a : Time) : a.Before a = false := by
  rw [before_eq_false_iff]; omega

theorem not_before_trans {a b c : Time} (h1 : b.Before a = false) (h2 : c.Before b = false) :
    c.Before a = false := by
  rw [before_eq_false_iff] at *
  omega

theorem eq_of_not_before {a b : Time} (h1 : a.Before b = false) (h2 : b.Before a = false) :
    a = b := by
  rw [before_eq_false_iff] at *
  cases a; cases b
  simp only [Time.mk.injEq] at *
  omega

/-- The update of `since` in one iteration of the sensor loop. -/
theorem getStep_since (st : GetState) (t : Sensor) :
    (getStep st t).since =
      if (windowsFileTime t.LastComm).Before st.since && !t.OutOfRange
      then windowsFileTime t.LastComm else st.since := rfl

theorem getStep_since_outOfRange (st : GetState) (t : Sensor) (h : t.OutOfRange = true) :
    (getStep st t).since = st.since := by
  rw [getStep_since, h]
  simp

theorem foldl_getStep_since_congr (tags : List Sensor) :
    ∀ st1 st2 : GetState, st1.since = st2.since →
      (tags.foldl getStep st1).since = (tags.foldl getStep st2).since := by
  induction tags with
  | nil => intro st1 st2 h; exact h
  | cons t ts ih =>
    intro st1 st2 h
    simp only [List.foldl_cons]
    apply ih
    rw [getStep_since, getStep_since, h]

theorem foldl_getStep_since_filter (tags : List Sensor) :
    ∀ st : GetState,
      (tags.foldl getStep st).since =
        ((tags.filter (fun t => !t.OutOfRange)).foldl getStep st).since := by
  induction tags with
  | nil => intro st; rfl
  | cons t ts ih =>
    intro st
    cases h : t.OutOfRange with
    | true =>
      have hf : (t :: ts).filter (fun t => !t.OutOfRange) = ts.filter (fun t => !t.OutOfRange) := by
        simp [List.filter_cons, h]
      rw [hf, List.foldl_cons, ← ih st]
      exact foldl_getStep_since_congr ts _ _ (getStep_since_outOfRange st t h)
    | false =>
      have hf : (t :: ts).filter (fun t => !t.OutOfRange)
          = t :: ts.filter (fun t => !t.OutOfRange) := by
        simp [List.filter_cons, h]
      rw [hf, List.foldl_cons, List.foldl_cons]
      exact ih _

theorem foldl_getStep_since_min (tags : List Sensor) :
    ∀ st : GetState,
      ((tags.foldl getStep st).since = st.since ∨
        ∃ t ∈ tags, t.OutOfRange = false ∧
          (tags.foldl getStep st).since = windowsFileTime t.LastComm) ∧
      st.since.Before (tags.foldl getStep st).since = false ∧
      ∀ t ∈ tags, t.OutOfRange = false →
        (windowsFileTime t.LastComm).Before (tags.foldl getStep st).since = false := by
  induction tags with
  | nil =>
    intro st
    refine ⟨Or.inl rfl, before_irrefl _, ?_⟩
    intro t ht
    cases ht
  | cons t ts ih =>
    intro st
    simp only [List.foldl_cons]
    obtain ⟨hmem, hle, hall⟩ := ih (getStep st t)
    have hstep := getStep_since st t
    -- the step never moves the watermark forward
    have hdown : st.since.Before (getStep st t).since = false := by
      rw [hstep]
      split
      · rename_i hc
        simp only [Bool.and_eq_true] at hc
        have hb := (before_iff _ _).1 hc.1
        rw [before_eq_false_iff]
        omega
      · exact before_irrefl _
    refine ⟨?_, not_before_trans hle hdown, ?_⟩
    · rcases hmem with h | ⟨u, hu, hr, hw⟩
      · rw [h, hstep]
        split
        · rename_i hc
          simp only [Bool.and_eq_true, Bool.not_eq_true'] at hc
          exact Or.inr ⟨t, List.mem_cons_self _ _, hc.2, rfl⟩
        · exact Or.inl rfl
      · exact Or.inr ⟨u, List.mem_cons_of_mem _ hu, hr, hw⟩
    · intro u hu hr
      rcases List.mem_cons.1 hu with h | h
      · subst h
        have hlast : (windowsFileTime u.LastComm).Before (getStep st u).since = false := by
          rw [hstep]
          split
          · exact before_irrefl _
          · rename_i hc
            simp only [Bool.and_eq_true, Bool.not_eq_true', not_and, Bool.not_eq_false] at hc
            cases hb : (windowsFileTime u.LastComm).Before st.since with
            | false => rfl
            | true =>
              have := hc hb
              rw [hr] at this
              cases this
        exact not_before_trans hle hlast
      · exact hall u h hr

/-- C3: the watermark of the sensor loop of `Get` is the minimum of the
requested instant and `windowsFileTime(LastComm)` over the sensors with
`OutOfRange = false`: it is one of these instants, the requested instant is
not before it, no in-range sensor's instant is before it, and every sensor
list with the same in-range sensors gives the same watermark. -/
theorem watermark_is_minimum (since : Time) (tags : List Sensor) :
    ((sensorLoop since tags).since = since ∨
      ∃ t ∈ tags, t.OutOfRange = false ∧
        (sensorLoop since tags).since = windowsFileTime t.LastComm) ∧
    since.Before (sensorLoop since tags).since = false ∧
    (∀ t ∈ tags, t.OutOfRange = false →
      (windowsFileTime t.LastComm).Before (sensorLoop since tags).since = false) ∧
    (∀ tags2 : List Sensor,
      tags2.filter (fun t => !t.OutOfRange) = tags.filter (fun t => !t.OutOfRange) →
        (sensorLoop since tags2).since = (sensorLoop since tags).since) := by
  obtain ⟨h1, h2, h3⟩ := foldl_getStep_since_min tags ⟨since, [], [], []⟩
  refine ⟨h1, h2, h3, ?_⟩
  intro tags2 hf
  unfold sensorLoop
  rw [foldl_getStep_since_filter tags2, foldl_getStep_since_filter tags, hf]

/-! ## The partition of `Get` -/

theorem foldl_getStep_groups (tags : List Sensor) :
    ∀ st : GetState,
      (tags.foldl getStep st).temperatureTags =
        st.temperatureTags ++ (tags.filter Sensor.hasTempSensor).map Sensor.SlaveID ∧
      (tags.foldl getStep st).lightTags =
        st.lightTags ++ (tags.filter Sensor.hasLightSensor).map Sensor.SlaveID ∧
      (tags.foldl getStep st).humidityTags =
        st.humidityTags ++ (tags.filter Sensor.hasHumiditySensor).map Sensor.SlaveID := by
  induction tags with
  | nil => intro st; simp
  | cons t ts ih =>
    intro st
    simp only [List.foldl_cons]
    obtain ⟨h1, h2, h3⟩ := ih (getStep st t)
    rw [h1, h2, h3]
    refine ⟨?_, ?_, ?_⟩
    · cases h : t.hasTempSensor <;> simp [getStep, List.filter_cons, h]
    · cases h : t.hasLightSensor <;> simp [getStep, List.filter_cons, h]
    · cases h : t.hasHumiditySensor <;> simp [getStep, List.filter_cons, h]

theorem requestsOf_nonempty (succeeds : metricType → Bool) (calls : List (metricType × List Nat)) :
    ∀ r ∈ requestsOf succeeds calls, r.2 ≠ [] ∧ r ∈ calls := by
  induction calls with
  | nil => intro r hr; cases hr
  | cons c cs ih =>
    obtain ⟨kind, ids⟩ := c
    intro r hr
    unfold requestsOf at hr
    split at hr
    · obtain ⟨h1, h2⟩ := ih r hr
      exact ⟨h1, List.mem_cons_of_mem _ h2⟩
    · rename_i hlen
      have hne : ids ≠ [] := fun h => hlen (by rw [h]; rfl)
      split at hr
      · rcases List.mem_cons.1 hr with h | h
        · subst h; exact ⟨hne, List.mem_cons_self _ _⟩
        · obtain ⟨h1, h2⟩ := ih r h
          exact ⟨h1, List.mem_cons_of_mem _ h2⟩
      · rcases List.mem_cons.1 hr with h | h
        · subst h; exact ⟨hne, List.mem_cons_self _ _⟩
        · cases h

theorem requestsOf_all_succeed (calls : List (metricType × List Nat)) :
    requestsOf (fun _ => true) calls = calls.filter (fun c => decide (c.2 ≠ [])) := by
  induction calls with
  | nil => rfl
  | cons c cs ih =>
    obtain ⟨kind, ids⟩ := c
    unfold requestsOf
    cases ids with
    | nil => simp [ih]
    | cons a l => simp [ih]

/-- C4 (as the code has it): the sensor loop of `Get` builds three groups only,
for temperature, light and humidity; each is the list of identifiers of the
sensors having that capability, in catalogue order, once per sensor; every
request `Get` sends is one of these three groups and is non-empty, and when no
call fails the requests are exactly the non-empty groups. -/
theorem partition_groups (succeeds : metricType → Bool) (since : Time) (tags : List Sensor) :
    (sensorLoop since tags).temperatureTags =
      (tags.filter Sensor.hasTempSensor).map Sensor.SlaveID ∧
    (sensorLoop since tags).lightTags =
      (tags.filter Sensor.hasLightSensor).map Sensor.SlaveID ∧
    (sensorLoop since tags).humidityTags =
      (tags.filter Sensor.hasHumiditySensor).map Sensor.SlaveID ∧
    (∀ r ∈ getRequests succeeds since tags,
      r.2 ≠ [] ∧
        (r = (typeTemperature, (sensorLoop since tags).temperatureTags) ∨
          r = (typeHumidity, (sensorLoop since tags).humidityTags) ∨
          r = (typeLux, (sensorLoop since tags).lightTags))) ∧
    getRequests (fun _ => true) since tags =
      (plannedCalls (sensorLoop since tags)).filter (fun c => decide (c.2 ≠ [])) := by
  obtain ⟨h1, h2, h3⟩ := foldl_getStep_groups tags ⟨since, [], [], []⟩
  simp only [List.nil_append] at h1 h2 h3
  refine ⟨h1, h2, h3, ?_, requestsOf_all_succeed _⟩
  intro r hr
  obtain ⟨hne, hmem⟩ := requestsOf_nonempty succeeds _ r hr
  refine ⟨hne, ?_⟩
  unfold plannedCalls at hmem
  simpa using hmem

/-- C4, counterexample: a sensor of tag type 12 has a motion sensor, yet for
the catalogue holding only this sensor `Get` sends a single request, for
temperature, and none of the groups it builds is a motion group. -/
theorem partition_omits_motion :
    (Sensor.mk [] [] false 1 12 0 []).hasMotionSensor = true ∧
    getRequests (fun _ => true) ⟨0, 0⟩ [Sensor.mk [] [] false 1 12 0 []]
      = [(typeTemperature, [1])] ∧
    ¬ ∃ g ∈ plannedCalls (sensorLoop ⟨0, 0⟩ [Sensor.mk [] [] false 1 12 0 []]),
        g.1 = typeMotion ∧ 1 ∈ g.2 := by
  decide

/-! ## Go maps -/

namespace GoMap

variable {κ ν : Type} [DecidableEq κ]

theorem find_store_same (m : GoMap κ ν) (k : κ) (v : ν) : find (store m k v) k = some v := by
  induction m with
  | nil => simp [store, find]
  | cons e m ih =>
    obtain ⟨k1, v1⟩ := e
    unfold store
    split
    · simp [find]
    · rename_i h
      simp [find, h, ih]

theorem find_store_ne (m : GoMap κ ν) (k k2 : κ) (v : ν) (h : k ≠ k2) :
    find (store m k v) k2 = find m k2 := by
  induction m with
  | nil => simp [store, find, h]
  | cons e m ih =>
    obtain ⟨k1, v1⟩ := e
    unfold store
    split
    · rename_i h1
      subst h1
      simp [find, h]
    · simp [find, ih]

theorem find_eq_none_iff (m : GoMap κ ν) (k : κ) : find m k = none ↔ k ∉ keys m := by
  induction m with
  | nil => simp [find, keys]
  | cons e m ih =>
    obtain ⟨k1, v1⟩ := e
    unfold find
    split
    · rename_i h
      subst h
      simp [keys]
    · rename_i h
      rw [ih]
      simp only [keys, List.map_cons, List.mem_cons, not_or]
      constructor
      · intro h2
        exact ⟨fun h3 => h h3.symm, h2⟩
      · intro h2
        exact h2.2

theorem find_isSome_iff (m : GoMap κ ν) (k : κ) : (∃ v, find m k = some v) ↔ k ∈ keys m := by
  constructor
  · intro ⟨v, hv⟩
    by_contra hc
    rw [(find_eq_none_iff m k).2 hc] at hv
    cases hv
  · intro hk
    cases h : find m k with
    | none => exact absurd hk ((find_eq_none_iff m k).1 h)
    | some v => exact ⟨v, rfl⟩

theorem keys_store_of_mem (m : GoMap κ ν) (k : κ) (v : ν) (h : k ∈ keys m) :
    keys (store m k v) = keys m := by
  induction m with
  | nil => simp [keys] at h
  | cons e m ih =>
    obtain ⟨k1, v1⟩ := e
    unfold store
    split
    · rename_i h1
      subst h1
      simp [keys]
    · rename_i h1
      have hm : k ∈ keys m := by
        simp only [keys, List.map_cons, List.mem_cons] at h
        rcases h with h | h
        · exact absurd h.symm h1
        · exact h
      have := ih hm
      simp only [keys, List.map_cons] at this ⊢
      rw [this]

theorem keys_store_of_not_mem (m : GoMap κ ν) (k : κ) (v : ν) (h : k ∉ keys m) :
    keys (store m k v) = keys m ++ [k] := by
  induction m with
  | nil => simp [keys, store]
  | cons e m ih =>
    obtain ⟨k1, v1⟩ := e
    simp only [keys, List.map_cons, List.mem_cons, not_or] at h
    unfold store
    rw [if_neg (fun h1 => h.1 h1.symm)]
    have := ih h.2
    simp only [keys, List.map_cons, List.cons_append] at this ⊢
    rw [this]

theorem mem_keys_store (m : GoMap κ ν) (k k2 : κ) (v : ν) :
    k2 ∈ keys (store m k v) ↔ k2 = k ∨ k2 ∈ keys m := by
  by_cases h : k ∈ keys m
  · rw [keys_store_of_mem m k v h]
    constructor
    · exact Or.inr
    · rintro (h1 | h1)
      · rw [h1]; exact h
      · exact h1
  · rw [keys_store_of_not_mem m k v h]
    simp only [List.mem_append, List.mem_singleton]
    exact Or.comm

theorem wf_store (m : GoMap κ ν) (k : κ) (v : ν) (h : WF m) : WF (store m k v) := by
  unfold WF at *
  by_cases hk : k ∈ keys m
  · rw [keys_store_of_mem m k v hk]; exact h
  · rw [keys_store_of_not_mem m k v hk]
    rw [List.nodup_append]
    refine ⟨h, List.nodup_singleton k, ?_⟩
    intro a ha hb
    rw [List.mem_singleton] at hb
    subst hb
    exact hk ha

theorem mem_of_find (m : GoMap κ ν) (k : κ) (v : ν) (h : find m k = some v) : (k, v) ∈ m := by
  induction m with
  | nil => simp [find] at h
  | cons e m ih =>
    obtain ⟨k1, v1⟩ := e
    unfold find at h
    split at h
    · rename_i h1
      subst h1
      injection h with h
      subst h
      exact List.mem_cons_self _ _
    · exact List.mem_cons_of_mem _ (ih h)

theorem mem_store (m : GoMap κ ν) (k : κ) (v : ν) (e : κ × ν) (h : e ∈ store m k v) :
    e = (k, v) ∨ e ∈ m := by
  induction m with
  | nil =>
    simp only [store, List.mem_singleton] at h
    exact Or.inl h
  | cons e1 m ih =>
    obtain ⟨k1, v1⟩ := e1
    unfold store at h
    split at h
    · rcases List.mem_cons.1 h with h | h
      · exact Or.inl h
      · exact Or.inr (List.mem_cons_of_mem _ h)
    · rcases List.mem_cons.1 h with h | h
      · exact Or.inr (by rw [h]; exact List.mem_cons_self _ _)
      · rcases ih h with h | h
        · exact Or.inl h
        · exact Or.inr (List.mem_cons_of_mem _ h)

end GoMap

/-! ## Induction over the merge loop -/

theorem drop_eq_cons {α : Type} {l : List α} {j : Nat} {a : α} {rest : List α}
    (h : l.drop j = a :: rest) : l[j]? = some a ∧ l.drop (j + 1) = rest := by
  constructor
  · have := List.getElem?_drop l j 0
    rw [h] at this
    simpa using this.symm
  · rw [← List.tail_drop, h]
    rfl

/-- Invariants of the sample loop: a property of the results map kept by
creating a collection and by inserting a sample listed in the response holds
after the loop, however it ends. -/
theorem mergeRow_induct (I : Results → Prop) (parseDate : List Char → Option Time)
    (mType : metricType) (since : Time) (all : List Stat)
    (hcreate : ∀ m id, I m → I (ensureCollection m id))
    (hins : ∀ m id key v, I m → IsSample parseDate since all id key v →
      I (insertSample m id key ⟨v, mType⟩))
    (stat : Stat) (hstat : stat ∈ all) (day : Time) (hday : parseDate stat.Date = some day)
    (i slaveID : Nat) (hid : stat.IDs[i]? = some slaveID)
    (row : List Nat) (hrow : stat.TimeOfDay[i]? = some row) :
    ∀ (tods : List Nat) (j : Nat) (m : Results), row.drop j = tods → I m →
      I (mergeRow day slaveID mType since stat i j tods m).2 := by
  intro tods
  induction tods with
  | nil => intro j m _ hm; exact hm
  | cons tod rest ih =>
    intro j m hdrop hm
    obtain ⟨hj, hrest⟩ := drop_eq_cons hdrop
    unfold mergeRow
    simp only []
    split
    · exact ih (j + 1) m hrest hm
    · rename_i hb
      split
      · exact hcreate m slaveID hm
      · rename_i v hv
        apply ih (j + 1) _ hrest
        apply hins m slaveID _ v hm
        refine ⟨stat, hstat, day, hday, i, j, tod, hid, ?_, hv, rfl, ?_⟩
        · rw [hrow]; exact hj
        · simpa using hb

theorem mergeStat_induct (I : Results → Prop) (parseDate : List Char → Option Time)
    (mType : metricType) (since : Time) (all : List Stat)
    (hcreate : ∀ m id, I m → I (ensureCollection m id))
    (hins : ∀ m id key v, I m → IsSample parseDate since all id key v →
      I (insertSample m id key ⟨v, mType⟩))
    (stat : Stat) (hstat : stat ∈ all) (day : Time) (hday : parseDate stat.Date = some day) :
    ∀ (ids : List Nat) (i : Nat) (m : Results), stat.IDs.drop i = ids → I m →
      I (mergeStat day mType since stat i ids m).2 := by
  intro ids
  induction ids with
  | nil => intro i m _ hm; exact hm
  | cons slaveID rest ih =>
    intro i m hdrop hm
    obtain ⟨hi, hrest⟩ := drop_eq_cons hdrop
    unfold mergeStat
    split
    · exact hm
    · rename_i row hrow
      have hr := mergeRow_induct I parseDate mType since all hcreate hins stat hstat day hday
        i slaveID hi row hrow row 0 m rfl hm
      generalize mergeRow day slaveID mType since stat i 0 row m = r at hr
      obtain ⟨o, m1⟩ := r
      cases o with
      | ok => exact ih (i + 1) m1 hrest hr
      | error msg => exact hr
      | panicked => exact hr

theorem mergeLoop_induct_aux (I : Results → Prop) (parseDate : List Char → Option Time)
    (mType : metricType) (since : Time) (all : List Stat)
    (hcreate : ∀ m id, I m → I (ensureCollection m id))
    (hins : ∀ m id key v, I m → IsSample parseDate since all id key v →
      I (insertSample m id key ⟨v, mType⟩)) :
    ∀ (stats : List Stat), (∀ s ∈ stats, s ∈ all) → ∀ m : Results, I m →
      I (mergeLoop parseDate mType since stats m).2 := by
  intro stats
  induction stats with
  | nil => intro _ m hm; exact hm
  | cons stat rest ih =>
    intro hsub m hm
    unfold mergeLoop
    split
    · exact hm
    · rename_i day hday
      have hr := mergeStat_induct I parseDate mType since all hcreate hins stat
        (hsub stat (List.mem_cons_self _ _)) day hday stat.IDs 0 m rfl hm
      generalize mergeStat day mType since stat 0 stat.IDs m = r at hr
      obtain ⟨o, m1⟩ := r
      have hsub2 : ∀ s ∈ rest, s ∈ all := fun s hs => hsub s (List.mem_cons_of_mem _ hs)
      cases o with
      | ok => exact ih hsub2 m1 hr
      | error msg => exact hr
      | panicked => exact hr

/-- Invariants of the merge loop of `getMetrics`. -/
theorem mergeLoop_induct (I : Results → Prop) (parseDate : List Char → Option Time)
    (mType : metricType) (since : Time) (stats : List Stat)
    (hcreate : ∀ m id, I m → I (ensureCollection m id))
    (hins : ∀ m id key v, I m → IsSample parseDate since stats id key v →
      I (insertSample m id key ⟨v, mType⟩))
    (m : Results) (hm : I m) : I (mergeLoop parseDate mType since stats m).2 :=
  mergeLoop_induct_aux I parseDate mType since stats hcreate hins stats (fun _ h => h) m hm

/-! ## One step of the merge -/

theorem find_ensureCollection_same (m : Results) (id : Nat) :
    GoMap.find (ensureCollection m id) id = some (collectionOf m id) := by
  unfold ensureCollection collectionOf
  cases h : GoMap.find m id with
  | none => simp [GoMap.find_store_same]
  | some c => simp [h]

theorem find_ensureCollection_ne (m : Results) (id id2 : Nat) (h : id ≠ id2) :
    GoMap.find (ensureCollection m id) id2 = GoMap.find m id2 := by
  unfold ensureCollection
  cases GoMap.find m id with
  | none => exact GoMap.find_store_ne m id id2 [] h
  | some c => rfl

theorem collectionOf_ensureCollection (m : Results) (id id2 : Nat) :
    collectionOf (ensureCollection m id) id2 = collectionOf m id2 := by
  by_cases h : id = id2
  · subst h
    unfold collectionOf
    rw [find_ensureCollection_same]
    rfl
  · unfold collectionOf
    rw [find_ensureCollection_ne m id id2 h]

theorem bucketOf_ensureCollection (m : Results) (id id2 : Nat) (key : Int) :
    bucketOf (ensureCollection m id) id2 key = bucketOf m id2 key := by
  unfold bucketOf
  rw [collectionOf_ensureCollection]

theorem find_insertSample_same (m : Results) (id : Nat) (key : Int) (x : Metric) :
    GoMap.find (insertSample m id key x) id
      = some (GoMap.store (collectionOf m id) key (bucketOf m id key ++ [x])) := by
  unfold insertSample
  simp only []
  rw [GoMap.find_store_same, collectionOf_ensureCollection, bucketOf_ensureCollection]

theorem find_insertSample_ne (m : Results) (id id2 : Nat) (key : Int) (x : Metric)
    (h : id ≠ id2) : GoMap.find (insertSample m id key x) id2 = GoMap.find m id2 := by
  unfold insertSample
  simp only []
  rw [GoMap.find_store_ne _ _ _ _ h, find_ensureCollection_ne m id id2 h]

theorem collectionOf_insertSample_same (m : Results) (id : Nat) (key : Int) (x : Metric) :
    collectionOf (insertSample m id key x) id
      = GoMap.store (collectionOf m id) key (bucketOf m id key ++ [x]) := by
  unfold collectionOf
  rw [find_insertSample_same]
  rfl

theorem collectionOf_insertSample_ne (m : Results) (id id2 : Nat) (key : Int) (x : Metric)
    (h : id ≠ id2) : collectionOf (insertSample m id key x) id2 = collectionOf m id2 := by
  unfold collectionOf
  rw [find_insertSample_ne m id id2 key x h]

theorem bucketOf_insertSample_same (m : Results) (id : Nat) (key : Int) (x : Metric) :
    bucketOf (insertSample m id key x) id key = bucketOf m id key ++ [x] := by
  unfold bucketOf
  rw [collectionOf_insertSample_same, GoMap.find_store_same]
  rfl

theorem find_collectionOf {m : Results} {id : Nat} {c : MetricsCollection}
    (h : GoMap.find m id = some c) : collectionOf m id = c := by
  unfold collectionOf
  rw [h]
  rfl

theorem find_collectionOf_some {m : Results} {id : Nat} {key : Int} {b : List Metric}
    (h : GoMap.find (collectionOf m id) key = some b) :
    GoMap.find m id = some (collectionOf m id) := by
  unfold collectionOf at *
  cases hm : GoMap.find m id with
  | none =>
    rw [hm] at h
    simp [GoMap.find] at h
  | some c => rfl

/-! ## What the merge inserts -/

theorem keysAreSamples_ensureCollection (parseDate : List Char → Option Time) (since : Time)
    (stats : List Stat) (m : Results) (id : Nat) (h : KeysAreSamples parseDate since stats m) :
    KeysAreSamples parseDate since stats (ensureCollection m id) := by
  intro id2 c key b hc hb
  by_cases hid : id = id2
  · subst hid
    rw [find_ensureCollection_same] at hc
    injection hc with hc
    subst hc
    exact h id _ key b (find_collectionOf_some hb) hb
  · rw [find_ensureCollection_ne m id id2 hid] at hc
    exact h id2 c key b hc hb

theorem keysAreSamples_insertSample (parseDate : List Char → Option Time) (since : Time)
    (stats : List Stat) (m : Results) (id : Nat) (key : Int) (v : float32) (mType : metricType)
    (h : KeysAreSamples parseDate since stats m) (hs : IsSample parseDate since stats id key v) :
    KeysAreSamples parseDate since stats (insertSample m id key ⟨v, mType⟩) := by
  intro id2 c key2 b hc hb
  by_cases hid : id = id2
  · subst hid
    rw [find_insertSample_same] at hc
    injection hc with hc
    subst hc
    by_cases hk : key = key2
    · subst hk
      exact ⟨v, hs⟩
    · rw [GoMap.find_store_ne _ _ _ _ hk] at hb
      exact h id _ key2 b (find_collectionOf_some hb) hb
  · rw [find_insertSample_ne m id id2 key _ hid] at hc
    exact h id2 c key2 b hc hb

/-- C5: after the merge loop of `getMetrics`, started from an empty results
map and however it ends, every bucket key under an identifier is the Unix
second of `dayStart + offset` for an (offset, value) pair listed for that
identifier in the response, and that instant is not before `since`. -/
theorem merge_keys_are_samples (parseDate : List Char → Option Time) (mType : metricType)
    (since : Time) (stats : List Stat) (id : Nat) (c : MetricsCollection) (key : Int)
    (b : List Metric)
    (hc : GoMap.find (mergeLoop parseDate mType since stats []).2 id = some c)
    (hb : GoMap.find c key = some b) :
    ∃ v, IsSample parseDate since stats id key v := by
  have h := mergeLoop_induct (KeysAreSamples parseDate since stats) parseDate mType since stats
    (fun m id hm => keysAreSamples_ensureCollection parseDate since stats m id hm)
    (fun m id key v hm hs => keysAreSamples_insertSample parseDate since stats m id key v mType hm hs)
    [] (by intro id c key b hc; simp [GoMap.find] at hc)
  exact h id c key b hc hb

theorem merge_keys_are_samples_witness :
    GoMap.find (mergeLoop (fun _ => some ⟨1507978800, 0⟩) typeTemperature ⟨1507981800, 0⟩
        [⟨"10/15/2017".toList, [3, 1], [[10, 11], [20]], [[54000, 100], [3600]]⟩] []).2 3
      = some [(1508032800, [⟨10, typeTemperature⟩])] ∧
    GoMap.find [((1508032800 : Int), [Metric.mk 10 typeTemperature])] 1508032800
      = some [⟨10, typeTemperature⟩] ∧
    ∃ v, IsSample (fun _ => some ⟨1507978800, 0⟩) ⟨1507981800, 0⟩
      [⟨"10/15/2017".toList, [3, 1], [[10, 11], [20]], [[54000, 100], [3600]]⟩]
      3 1508032800 v :=
  ⟨by decide, by decide,
    merge_keys_are_samples (fun _ => some ⟨1507978800, 0⟩) typeTemperature ⟨1507981800, 0⟩
      [⟨"10/15/2017".toList, [3, 1], [[10, 11], [20]], [[54000, 100], [3600]]⟩]
      3 [(1508032800, [⟨10, typeTemperature⟩])] 1508032800 [⟨10, typeTemperature⟩]
      (by decide) (by decide)⟩

/-- For a `uint32` offset and a start date with a normalised nanosecond field,
`startDate.Add(time.Second * time.Duration(tod))` is `tod` whole seconds
later: the multiplication does not leave the `int64` range. -/
theorem sampleTime_eq (day : Time) (tod : Nat) (htod : tod < 4294967296)
    (hn : 0 ≤ day.nsec ∧ day.nsec < 1000000000) :
    sampleTime day tod = ⟨day.sec + tod, day.nsec⟩ := by
  unfold sampleTime Second
  have hw : wrapInt64 (1000000000 * (tod : Int)) = 1000000000 * (tod : Int) :=
    wrapInt64_of_isInt64 (by unfold isInt64; omega)
  rw [hw]
  unfold Time.Add
  simp only []
  have hnn : (0 : Int) ≤ 1000000000 * (tod : Int) := by omega
  rw [tdiv_of_nonneg hnn (by decide), tmod_of_nonneg hnn (by decide)]
  have h1 : 1000000000 * (tod : Int) % 1000000000 = 0 := by omega
  have h2 : 1000000000 * (tod : Int) / 1000000000 = tod := by omega
  rw [h1, h2, Int.add_zero]
  rw [if_neg (by omega), if_neg (by omega)]

theorem sampleTime_eq_witness :
    (54000 : Nat) < 4294967296 ∧
    ((0 : Int) ≤ (Time.mk 1507978800 0).nsec ∧ (Time.mk 1507978800 0).nsec < 1000000000) ∧
    sampleTime ⟨1507978800, 0⟩ 54000 = ⟨1507978800 + (54000 : Nat), 0⟩ :=
  ⟨by decide, by decide, sampleTime_eq ⟨1507978800, 0⟩ 54000 (by decide) (by decide)⟩

/-! ## A stat group whose lengths disagree -/

/-- C7, evaluation: a stat group with two identifiers and one row of offsets
and values makes the merge loop stop with an index-out-of-range panic after
the sample of the first identifier was merged; no error is returned and the
results map is not left as it was. A stat group with fewer identifiers than
rows is merged without any error. -/
theorem merge_length_mismatch_panics :
    (mergeLoop (fun _ => some ⟨1507978800, 0⟩) typeTemperature ⟨0, 0⟩
        [⟨"10/15/2017".toList, [1, 2], [[7]], [[0]]⟩] []).1 = Outcome.panicked ∧
    (mergeLoop (fun _ => some ⟨1507978800, 0⟩) typeTemperature ⟨0, 0⟩
        [⟨"10/15/2017".toList, [1, 2], [[7]], [[0]]⟩] []).2
      = [(1, [(1507978800, [⟨7, typeTemperature⟩])])] ∧
    (mergeLoop (fun _ => some ⟨1507978800, 0⟩) typeTemperature ⟨0, 0⟩
        [⟨"10/15/2017".toList, [1], [[7], [8]], [[0], [5]]⟩] []).1 = Outcome.ok ∧
    (mergeLoop (fun _ => some ⟨1507978800, 0⟩) typeTemperature ⟨0, 0⟩
        [⟨"10/15/2017".toList, [1], [[7], [8]], [[0], [5]]⟩] []).2
      = [(1, [(1507978800, [⟨7, typeTemperature⟩])])] := by
  decide

/-! ## The merge only appends -/

theorem extends_refl (m : Results) : Extends m m := by
  intro id c hc
  exact ⟨c, hc, fun key b hb => ⟨b, hb, List.prefix_refl b⟩⟩

theorem extends_trans {m1 m2 m3 : Results} (h12 : Extends m1 m2) (h23 : Extends m2 m3) :
    Extends m1 m3 := by
  intro id c1 hc1
  obtain ⟨c2, hc2, hk2⟩ := h12 id c1 hc1
  obtain ⟨c3, hc3, hk3⟩ := h23 id c2 hc2
  refine ⟨c3, hc3, ?_⟩
  intro key b1 hb1
  obtain ⟨b2, hb2, hp2⟩ := hk2 key b1 hb1
  obtain ⟨b3, hb3, hp3⟩ := hk3 key b2 hb2
  exact ⟨b3, hb3, List.IsPrefix.trans hp2 hp3⟩

theorem extends_ensureCollection (m : Results) (id : Nat) : Extends m (ensureCollection m id) := by
  intro id2 c hc
  refine ⟨c, ?_, fun key b hb => ⟨b, hb, List.prefix_refl b⟩⟩
  by_cases h : id = id2
  · subst h
    rw [find_ensureCollection_same, find_collectionOf hc]
  · rw [find_ensureCollection_ne m id id2 h, hc]

theorem extends_insertSample (m : Results) (id : Nat) (key : Int) (x : Metric) :
    Extends m (insertSample m id key x) := by
  intro id2 c hc
  by_cases h : id = id2
  · subst h
    refine ⟨_, find_insertSample_same m id key x, ?_⟩
    intro key2 b hb
    rw [find_collectionOf hc]
    by_cases hk : key = key2
    · subst hk
      refine ⟨_, GoMap.find_store_same _ _ _, ?_⟩
      unfold bucketOf
      rw [find_collectionOf hc, hb]
      exact List.prefix_append b [x]
    · exact ⟨b, by rw [GoMap.find_store_ne _ _ _ _ hk, hb], List.prefix_refl b⟩
  · exact ⟨c, by rw [find_insertSample_ne m id id2 key x h, hc],
      fun key2 b hb => ⟨b, hb, List.prefix_refl b⟩⟩

theorem wf_collectionOf (m : Results) (id : Nat) (h : ResultsWF m) :
    GoMap.WF (collectionOf m id) := by
  unfold collectionOf
  cases hc : GoMap.find m id with
  | none => exact List.nodup_nil
  | some c => exact h.2 (id, c) (GoMap.mem_of_find m id c hc)

theorem wf_store_collection (m : Results) (id : Nat) (c : MetricsCollection)
    (h : ResultsWF m) (hc : GoMap.WF c) : ResultsWF (GoMap.store m id c) := by
  refine ⟨GoMap.wf_store m id c h.1, ?_⟩
  intro e he
  rcases GoMap.mem_store m id c e he with h1 | h1
  · rw [h1]; exact hc
  · exact h.2 e h1

theorem wf_ensureCollection (m : Results) (id : Nat) (h : ResultsWF m) :
    ResultsWF (ensureCollection m id) := by
  unfold ensureCollection
  cases GoMap.find m id with
  | none => exact wf_store_collection m id [] h List.nodup_nil
  | some c => exact h

theorem wf_insertSample (m : Results) (id : Nat) (key : Int) (x : Metric) (h : ResultsWF m) :
    ResultsWF (insertSample m id key x) := by
  unfold insertSample
  simp only []
  have h1 := wf_ensureCollection m id h
  exact wf_store_collection _ id _ h1 (GoMap.wf_store _ _ _ (wf_collectionOf _ id h1))

theorem mergeLoop_single (parseDate : List Char → Option Time) (mType : metricType)
    (since : Time) (m : Results) (date : List Char) (day : Time) (id tod : Nat) (v : float32)
    (hday : parseDate date = some day) (hb : (sampleTime day tod).Before since = false) :
    mergeLoop parseDate mType since [⟨date, [id], [[v]], [[tod]]⟩] m
      = (Outcome.ok, insertSample m id (sampleTime day tod).Unix ⟨v, mType⟩) := by
  simp [mergeLoop, mergeStat, mergeRow, hday, hb]

/-- C10: the merge loop of `getMetrics` only appends. For every initial
results map (every key has one entry, as in any Go map), every response, kind and
`since`, and however the loop ends: every identifier and bucket present
before is present afterwards with the old samples as a prefix of the new
ones; every identifier still has one collection and every timestamp one
bucket; and a sample merged at a timestamp is put at the end of the bucket
that timestamp had before. -/
theorem merge_append_only (parseDate : List Char → Option Time) (mType : metricType)
    (since : Time) (stats : List Stat) (m : Results) (hwf : ResultsWF m) :
    Extends m (mergeLoop parseDate mType since stats m).2 ∧
    ResultsWF (mergeLoop parseDate mType since stats m).2 ∧
    ∀ (date : List Char) (day : Time) (id tod : Nat) (v : float32),
      parseDate date = some day → (sampleTime day tod).Before since = false →
      bucketOf (mergeLoop parseDate mType since [⟨date, [id], [[v]], [[tod]]⟩] m).2 id
          (sampleTime day tod).Unix
        = bucketOf m id (sampleTime day tod).Unix ++ [⟨v, mType⟩] := by
  have h := mergeLoop_induct (fun m2 => Extends m m2 ∧ ResultsWF m2) parseDate mType since stats
    (fun m2 id hm => ⟨extends_trans hm.1 (extends_ensureCollection m2 id),
      wf_ensureCollection m2 id hm.2⟩)
    (fun m2 id key v hm _ => ⟨extends_trans hm.1 (extends_insertSample m2 id key _),
      wf_insertSample m2 id key _ hm.2⟩)
    m ⟨extends_refl m, hwf⟩
  refine ⟨h.1, h.2, ?_⟩
  intro date day id tod v hday hb
  rw [mergeLoop_single parseDate mType since m date day id tod v hday hb]
  exact bucketOf_insertSample_same m id _ _

theorem merge_append_only_witness :
    ResultsWF [(3, [(1507978800, [⟨10, typeTemperature⟩])])] ∧
    (Extends [(3, [(1507978800, [⟨10, typeTemperature⟩])])]
      (mergeLoop (fun _ => some ⟨1507978800, 0⟩) typeHumidity ⟨0, 0⟩
        [⟨"10/15/2017".toList, [3], [[55]], [[0]]⟩]
        [(3, [(1507978800, [⟨10, typeTemperature⟩])])]).2 ∧
    ResultsWF (mergeLoop (fun _ => some ⟨1507978800, 0⟩) typeHumidity ⟨0, 0⟩
        [⟨"10/15/2017".toList, [3], [[55]], [[0]]⟩]
        [(3, [(1507978800, [⟨10, typeTemperature⟩])])]).2 ∧
    ∀ (date : List Char) (day : Time) (id tod : Nat) (v : float32),
      (fun _ => some ⟨1507978800, 0⟩ : List Char → Option Time) date = some day →
      (sampleTime day tod).Before ⟨0, 0⟩ = false →
      bucketOf (mergeLoop (fun _ => some ⟨1507978800, 0⟩) typeHumidity ⟨0, 0⟩
          [⟨date, [id], [[v]], [[tod]]⟩] [(3, [(1507978800, [⟨10, typeTemperature⟩])])]).2 id
          (sampleTime day tod).Unix
        = bucketOf [(3, [(1507978800, [⟨10, typeTemperature⟩])])] id (sampleTime day tod).Unix
            ++ [⟨v, typeHumidity⟩]) :=
  ⟨by decide,
    merge_append_only (fun _ => some ⟨1507978800, 0⟩) typeHumidity ⟨0, 0⟩
      [⟨"10/15/2017".toList, [3], [[55]], [[0]]⟩]
      [(3, [(1507978800, [⟨10, typeTemperature⟩])])] (by decide)⟩

/-! ## Counting buckets -/

theorem keys_collectionOf_insertSample (m : Results) (id id2 : Nat) (key : Int) (x : Metric) :
    GoMap.keys (collectionOf (insertSample m id key x) id2)
      = (if id2 = id then [key] else []).foldl addKey (GoMap.keys (collectionOf m id2)) := by
  by_cases h : id2 = id
  · subst h
    rw [collectionOf_insertSample_same, if_pos rfl]
    simp only [List.foldl_cons, List.foldl_nil]
    unfold addKey
    split
    · rename_i hk
      exact GoMap.keys_store_of_mem _ _ _ hk
    · rename_i hk
      exact GoMap.keys_store_of_not_mem _ _ _ hk
  · rw [collectionOf_insertSample_ne m id id2 key x (fun h1 => h h1.symm), if_neg h]
    rfl

theorem rowKeys_cons (day since : Time) (tod : Nat) (tods : List Nat) :
    rowKeys day since (tod :: tods)
      = if (sampleTime day tod).Before since then rowKeys day since tods
        else (sampleTime day tod).Unix :: rowKeys day since tods := by
  unfold rowKeys
  cases h : (sampleTime day tod).Before since <;> simp [List.filter_cons, h]

theorem mergeRow_wellFormed (day : Time) (slaveID : Nat) (mType : metricType) (since : Time)
    (stat : Stat) (i : Nat) (row : List Nat) (vrow : List float32)
    (hv : stat.Values[i]? = some vrow) (hlen : row.length = vrow.length) :
    ∀ (tods : List Nat) (j : Nat) (m : Results), row.drop j = tods →
      (mergeRow day slaveID mType since stat i j tods m).1 = Outcome.ok ∧
      ∀ id, GoMap.keys (collectionOf (mergeRow day slaveID mType since stat i j tods m).2 id)
        = (if id = slaveID then rowKeys day since tods else []).foldl addKey
            (GoMap.keys (collectionOf m id)) := by
  intro tods
  induction tods with
  | nil =>
    intro j m _
    refine ⟨rfl, ?_⟩
    intro id
    unfold mergeRow rowKeys
    simp
  | cons tod rest ih =>
    intro j m hdrop
    obtain ⟨hj, hrest⟩ := drop_eq_cons hdrop
    have hjlt : j < vrow.length := by
      rw [← hlen]
      by_contra hc
      rw [List.getElem?_eq_none (by omega)] at hj
      cases hj
    unfold mergeRow
    simp only []
    rw [rowKeys_cons]
    cases hb : (sampleTime day tod).Before since with
    | true =>
      simp only [if_true]
      exact ih (j + 1) m hrest
    | false =>
      have hval : (stat.Values[i]?).bind (fun r => r[j]?) = some (vrow[j]) := by
        rw [hv]
        simp [List.getElem?_eq_getElem hjlt]
      simp only [Bool.false_eq_true, if_false]
      rw [hval]
      simp only []
      obtain ⟨h1, h2⟩ := ih (j + 1) (insertSample m slaveID (sampleTime day tod).Unix
        ⟨vrow[j], mType⟩) hrest
      refine ⟨h1, ?_⟩
      intro id
      rw [h2 id, keys_collectionOf_insertSample]
      by_cases hid : id = slaveID
      · simp [hid]
      · simp [hid]

theorem statKeys_cons (day since : Time) (id sid : Nat) (ids : List Nat) (row : List Nat)
    (rows : List (List Nat)) :
    statKeys day since id (sid :: ids) (row :: rows)
      = (if sid = id then rowKeys day since row else []) ++ statKeys day since id ids rows := rfl

theorem mergeStat_wellFormed (day : Time) (mType : metricType) (since : Time) (stat : Stat)
    (hwf : stat.wellFormed) :
    ∀ (ids : List Nat) (i : Nat) (m : Results), stat.IDs.drop i = ids →
      (mergeStat day mType since stat i ids m).1 = Outcome.ok ∧
      ∀ id, GoMap.keys (collectionOf (mergeStat day mType since stat i ids m).2 id)
        = (statKeys day since id ids (stat.TimeOfDay.drop i)).foldl addKey
            (GoMap.keys (collectionOf m id)) := by
  intro ids
  induction ids with
  | nil =>
    intro i m _
    refine ⟨rfl, ?_⟩
    intro id
    unfold mergeStat statKeys
    simp
  | cons slaveID rest ih =>
    intro i m hdrop
    obtain ⟨hi, hrest⟩ := drop_eq_cons hdrop
    have hilt : i < stat.TimeOfDay.length := by
      rw [← hwf.1]
      by_contra hc
      rw [List.getElem?_eq_none (by omega)] at hi
      cases hi
    have hrow : stat.TimeOfDay[i]? = some (stat.TimeOfDay[i]) := List.getElem?_eq_getElem hilt
    have hmap : (stat.TimeOfDay.map List.length)[i]? = (stat.Values.map List.length)[i]? := by
      rw [hwf.2]
    rw [List.getElem?_map, List.getElem?_map, hrow] at hmap
    obtain ⟨vrow, hv, hvlen⟩ : ∃ vrow, stat.Values[i]? = some vrow ∧
        (stat.TimeOfDay[i]).length = vrow.length := by
      cases hv : stat.Values[i]? with
      | none => rw [hv] at hmap; cases hmap
      | some vrow =>
        rw [hv] at hmap
        simp only [Option.map_some', Option.some.injEq] at hmap
        exact ⟨vrow, rfl, hmap⟩
    have hdropT : stat.TimeOfDay.drop i = stat.TimeOfDay[i] :: stat.TimeOfDay.drop (i + 1) :=
      List.drop_eq_getElem_cons hilt
    unfold mergeStat
    rw [hrow]
    simp only []
    obtain ⟨hr1, hr2⟩ := mergeRow_wellFormed day slaveID mType since stat i (stat.TimeOfDay[i])
      vrow hv hvlen (stat.TimeOfDay[i]) 0 m rfl
    generalize mergeRow day slaveID mType since stat i 0 (stat.TimeOfDay[i]) m = r at hr1 hr2
    obtain ⟨o, m1⟩ := r
    simp only at hr1 hr2
    subst hr1
    simp only []
    obtain ⟨h1, h2⟩ := ih (i + 1) m1 hrest
    refine ⟨h1, ?_⟩
    intro id
    rw [h2 id, hr2 id, hdropT, statKeys_cons, List.foldl_append]
    by_cases hid : id = slaveID
    · simp [hid]
    · have hid2 : ¬ slaveID = id := fun h => hid h.symm
      simp [hid, hid2]

theorem mergeLoop_wellFormed (parseDate : List Char → Option Time) (mType : metricType)
    (since : Time) :
    ∀ (stats : List Stat) (m : Results),
      (∀ stat ∈ stats, stat.wellFormed ∧ (parseDate stat.Date).isSome = true) →
      (mergeLoop parseDate mType since stats m).1 = Outcome.ok ∧
      ∀ id, GoMap.keys (collectionOf (mergeLoop parseDate mType since stats m).2 id)
        = (responseKeys parseDate since id stats).foldl addKey
            (GoMap.keys (collectionOf m id)) := by
  intro stats
  induction stats with
  | nil =>
    intro m _
    refine ⟨rfl, ?_⟩
    intro id
    unfold mergeLoop responseKeys
    simp
  | cons stat rest ih =>
    intro m hwf
    obtain ⟨hs, hp⟩ := hwf stat (List.mem_cons_self _ _)
    obtain ⟨day, hday⟩ := Option.isSome_iff_exists.1 hp
    unfold mergeLoop responseKeys
    rw [hday]
    simp only []
    obtain ⟨hr1, hr2⟩ := mergeStat_wellFormed day mType since stat hs stat.IDs 0 m rfl
    generalize mergeStat day mType since stat 0 stat.IDs m = r at hr1 hr2
    obtain ⟨o, m1⟩ := r
    simp only at hr1 hr2
    subst hr1
    simp only []
    obtain ⟨h1, h2⟩ := ih m1 (fun s hs2 => hwf s (List.mem_cons_of_mem _ hs2))
    refine ⟨h1, ?_⟩
    intro id
    rw [h2 id, hr2 id, List.foldl_append]
    simp

theorem foldl_addKey (l : List Int) :
    ∀ acc : List Int, acc.Nodup →
      (l.foldl addKey acc).Nodup ∧ ∀ k, k ∈ l.foldl addKey acc ↔ k ∈ acc ∨ k ∈ l := by
  induction l with
  | nil => intro acc h; simp [h]
  | cons a l ih =>
    intro acc h
    simp only [List.foldl_cons]
    have hn : (addKey acc a).Nodup := by
      unfold addKey
      split
      · exact h
      · rename_i ha
        rw [List.nodup_append]
        refine ⟨h, List.nodup_singleton a, ?_⟩
        intro x hx hy
        rw [List.mem_singleton] at hy
        subst hy
        exact ha hx
    have hm : ∀ k, k ∈ addKey acc a ↔ k ∈ acc ∨ k = a := by
      intro k
      unfold addKey
      split
      · rename_i ha
        constructor
        · exact Or.inl
        · rintro (h1 | h1)
          · exact h1
          · rw [h1]; exact ha
      · simp
    obtain ⟨h1, h2⟩ := ih (addKey acc a) hn
    refine ⟨h1, ?_⟩
    intro k
    rw [h2 k, hm k, List.mem_cons]
    tauto

theorem length_foldl_addKey (l : List Int) : (l.foldl addKey []).length = l.dedup.length := by
  obtain ⟨h1, h2⟩ := foldl_addKey l [] List.nodup_nil
  apply List.Perm.length_eq
  rw [List.perm_ext_iff_of_nodup h1 (List.nodup_dedup l)]
  intro a
  rw [h2 a, List.mem_dedup]
  simp

/-- C6 (as the code has it): for a well-formed response whose dates parse,
merged into an empty results map, the merge loop returns nil and the number
of buckets of each identifier is the number of distinct Unix seconds among
that identifier's samples at or after `since`; it is the number of these
samples when their Unix seconds are pairwise distinct. -/
theorem merge_bucket_count (parseDate : List Char → Option Time) (mType : metricType)
    (since : Time) (stats : List Stat)
    (hwf : ∀ stat ∈ stats, stat.wellFormed ∧ (parseDate stat.Date).isSome = true) (id : Nat) :
    (mergeLoop parseDate mType since stats []).1 = Outcome.ok ∧
    GoMap.len (collectionOf (mergeLoop parseDate mType since stats []).2 id)
      = (responseKeys parseDate since id stats).dedup.length ∧
    ((responseKeys parseDate since id stats).Nodup →
      GoMap.len (collectionOf (mergeLoop parseDate mType since stats []).2 id)
        = (responseKeys parseDate since id stats).length) := by
  obtain ⟨h1, h2⟩ := mergeLoop_wellFormed parseDate mType since stats [] hwf
  have hlen : GoMap.len (collectionOf (mergeLoop parseDate mType since stats []).2 id)
      = (responseKeys parseDate since id stats).dedup.length := by
    have hk := h2 id
    have h0 : GoMap.keys (collectionOf ([] : Results) id) = [] := rfl
    rw [h0] at hk
    have : GoMap.len (collectionOf (mergeLoop parseDate mType since stats []).2 id)
        = (GoMap.keys (collectionOf (mergeLoop parseDate mType since stats []).2 id)).length := by
      unfold GoMap.len GoMap.keys
      rw [List.length_map]
    rw [this, hk, length_foldl_addKey]
  refine ⟨h1, hlen, ?_⟩
  intro hnd
  rw [hlen, List.Nodup.dedup hnd]

theorem merge_bucket_count_witness :
    (∀ stat ∈ [Stat.mk "10/15/2017".toList [3, 1] [[10, 11], [20]] [[54000, 100], [3600]]],
      stat.wellFormed ∧
        ((fun _ => some ⟨1507978800, 0⟩ : List Char → Option Time) stat.Date).isSome = true) ∧
    ((mergeLoop (fun _ => some ⟨1507978800, 0⟩) typeTemperature ⟨1507981800, 0⟩
        [⟨"10/15/2017".toList, [3, 1], [[10, 11], [20]], [[54000, 100], [3600]]⟩] []).1
      = Outcome.ok ∧
    GoMap.len (collectionOf (mergeLoop (fun _ => some ⟨1507978800, 0⟩) typeTemperature
        ⟨1507981800, 0⟩
        [⟨"10/15/2017".toList, [3, 1], [[10, 11], [20]], [[54000, 100], [3600]]⟩] []).2 3)
      = (responseKeys (fun _ => some ⟨1507978800, 0⟩) ⟨1507981800, 0⟩ 3
        [⟨"10/15/2017".toList, [3, 1], [[10, 11], [20]], [[54000, 100], [3600]]⟩]).dedup.length ∧
    ((responseKeys (fun _ => some ⟨1507978800, 0⟩) ⟨1507981800, 0⟩ 3
        [⟨"10/15/2017".toList, [3, 1], [[10, 11], [20]], [[54000, 100], [3600]]⟩]).Nodup →
      GoMap.len (collectionOf (mergeLoop (fun _ => some ⟨1507978800, 0⟩) typeTemperature
          ⟨1507981800, 0⟩
          [⟨"10/15/2017".toList, [3, 1], [[10, 11], [20]], [[54000, 100], [3600]]⟩] []).2 3)
        = (responseKeys (fun _ => some ⟨1507978800, 0⟩) ⟨1507981800, 0⟩ 3
          [⟨"10/15/2017".toList, [3, 1], [[10, 11], [20]], [[54000, 100], [3600]]⟩]).length)) :=
  ⟨by decide,
    merge_bucket_count (fun _ => some ⟨1507978800, 0⟩) typeTemperature ⟨1507981800, 0⟩
      [⟨"10/15/2017".toList, [3, 1], [[10, 11], [20]], [[54000, 100], [3600]]⟩] (by decide) 3⟩

/-- C6, counterexample: a well-formed response listing two samples of
identifier 1 at the same second is merged into one bucket holding both, so the
collection has one bucket while the response has two samples at or after
`since`. -/
theorem merge_bucket_count_counterexample :
    (∀ stat ∈ [Stat.mk "10/15/2017".toList [1] [[7, 8]] [[0, 0]]],
      stat.wellFormed ∧
        ((fun _ => some ⟨1507978800, 0⟩ : List Char → Option Time) stat.Date).isSome = true) ∧
    (mergeLoop (fun _ => some ⟨1507978800, 0⟩) typeTemperature ⟨0, 0⟩
        [⟨"10/15/2017".toList, [1], [[7, 8]], [[0, 0]]⟩] []).2
      = [(1, [(1507978800, [⟨7, typeTemperature⟩, ⟨8, typeTemperature⟩])])] ∧
    GoMap.len (collectionOf (mergeLoop (fun _ => some ⟨1507978800, 0⟩) typeTemperature ⟨0, 0⟩
        [⟨"10/15/2017".toList, [1], [[7, 8]], [[0, 0]]⟩] []).2 1) = 1 ∧
    (responseKeys (fun _ => some ⟨1507978800, 0⟩) ⟨0, 0⟩ 1
        [⟨"10/15/2017".toList, [1], [[7, 8]], [[0, 0]]⟩]).length = 2 := by
  decide

/-! ## The request body -/

theorem isSpace_digitChar (n : Nat) : isSpace (Nat.digitChar (n % 10)) = false := by
  have h : n % 10 < 10 := Nat.mod_lt n (by decide)
  generalize n % 10 = d at h
  interval_cases d <;> decide

theorem toDigitsCore_noSpace (fuel : Nat) :
    ∀ (n : Nat) (ds : List Char), (∀ c ∈ ds, isSpace c = false) →
      ∀ c ∈ Nat.toDigitsCore 10 fuel n ds, isSpace c = false := by
  induction fuel with
  | zero => intro n ds h c hc; exact h c hc
  | succ fuel ih =>
    intro n ds h c hc
    unfold Nat.toDigitsCore at hc
    simp only [] at hc
    have hds : ∀ c ∈ Nat.digitChar (n % 10) :: ds, isSpace c = false := by
      intro c hc
      rcases List.mem_cons.1 hc with h1 | h1
      · rw [h1]; exact isSpace_digitChar n
      · exact h c h1
    split at hc
    · exact hds c hc
    · exact ih _ _ hds c hc

theorem toDigitsCore_ne_nil (fuel : Nat) :
    ∀ (n : Nat) (ds : List Char), ds ≠ [] ∨ fuel ≠ 0 → Nat.toDigitsCore 10 fuel n ds ≠ [] := by
  induction fuel with
  | zero =>
    intro n ds h
    rcases h with h | h
    · exact h
    · exact absurd rfl h
  | succ fuel ih =>
    intro n ds _
    unfold Nat.toDigitsCore
    simp only []
    split
    · exact List.cons_ne_nil _ _
    · exact ih _ _ (Or.inl (List.cons_ne_nil _ _))

theorem decimal_noSpace (n : Nat) : ∀ c ∈ decimal n, isSpace c = false :=
  toDigitsCore_noSpace (n + 1) n [] (fun c hc => by cases hc)

theorem decimal_ne_nil (n : Nat) : decimal n ≠ [] :=
  toDigitsCore_ne_nil (n + 1) n [] (Or.inr (Nat.succ_ne_zero n))

theorem fieldsAux_append_noSpace (w : List Char) :
    ∀ (cur rest : List Char), (∀ c ∈ w, isSpace c = false) →
      fieldsAux cur (w ++ rest) = fieldsAux (cur ++ w) rest := by
  induction w with
  | nil => intro cur rest _; simp
  | cons a w ih =>
    intro cur rest h
    have ha : isSpace a = false := h a (List.mem_cons_self _ _)
    rw [List.cons_append, fieldsAux, ha]
    simp only [Bool.false_eq_true, if_false]
    rw [ih (cur ++ [a]) rest (fun c hc => h c (List.mem_cons_of_mem _ hc))]
    simp

theorem stringsJoin_cons (a : List Char) (l : List (List Char)) (sep : List Char) (h : l ≠ []) :
    stringsJoin (a :: l) sep = a ++ sep ++ stringsJoin l sep := by
  cases l with
  | nil => exact absurd rfl h
  | cons b rest => rfl

theorem intercalate_cons_cons (sep a b : List Char) (l : List (List Char)) :
    List.intercalate sep (a :: b :: l) = a ++ sep ++ List.intercalate sep (b :: l) := by
  simp [List.intercalate, List.intersperse]

theorem intercalate_append_head (sep a b : List Char) (l : List (List Char)) :
    List.intercalate sep ((a ++ b) :: l) = a ++ List.intercalate sep (b :: l) := by
  cases l with
  | nil => simp [List.intercalate, List.intersperse]
  | cons c l => rw [intercalate_cons_cons, intercalate_cons_cons]; simp

theorem fieldsAux_rest (cs : List Nat) :
    ∀ cur : List Char, cur ≠ [] →
      fieldsAux cur (sprintBytesRest cs ++ [']']) ≠ [] ∧
      stringsJoin (fieldsAux cur (sprintBytesRest cs ++ [']'])) [',']
        = List.intercalate [','] (cur :: cs.map decimal) ++ [']'] := by
  induction cs with
  | nil =>
    intro cur hcur
    have h1 : fieldsAux cur (sprintBytesRest [] ++ [']']) = [cur ++ [']']] := by
      have hs : isSpace ']' = false := by decide
      simp [sprintBytesRest, fieldsAux, hs]
    rw [h1]
    refine ⟨List.cons_ne_nil _ _, ?_⟩
    simp [stringsJoin, List.intercalate, List.intersperse]
  | cons c cs ih =>
    intro cur hcur
    have hs : isSpace ' ' = true := by decide
    have h1 : fieldsAux cur (sprintBytesRest (c :: cs) ++ [']'])
        = cur :: fieldsAux (decimal c) (sprintBytesRest cs ++ [']']) := by
      rw [sprintBytesRest, List.cons_append, fieldsAux, hs]
      simp only [if_true, if_neg hcur]
      rw [List.append_assoc, fieldsAux_append_noSpace (decimal c) [] _ (decimal_noSpace c)]
      simp
    obtain ⟨ih1, ih2⟩ := ih (decimal c) (decimal_ne_nil c)
    rw [h1]
    refine ⟨List.cons_ne_nil _ _, ?_⟩
    rw [stringsJoin_cons _ _ _ ih1, ih2, List.map_cons, intercalate_cons_cons]
    simp

theorem join_fields_sprintBytes (ids : List Nat) :
    stringsJoin (stringsFields (sprintBytes ids)) [',']
      = '[' :: (List.intercalate [','] (ids.map decimal) ++ [']']) := by
  cases ids with
  | nil => decide
  | cons c cs =>
    have hb : isSpace '[' = false := by decide
    have h1 : stringsFields (sprintBytes (c :: cs))
        = fieldsAux ('[' :: decimal c) (sprintBytesRest cs ++ [']']) := by
      unfold stringsFields sprintBytes
      rw [fieldsAux, hb]
      simp only [Bool.false_eq_true, if_false, List.nil_append]
      rw [List.append_assoc, fieldsAux_append_noSpace (decimal c) _ _ (decimal_noSpace c)]
      simp
    rw [h1, (fieldsAux_rest cs ('[' :: decimal c) (List.cons_ne_nil _ _)).2]
    have h2 := intercalate_append_head [','] ['['] (decimal c) (cs.map decimal)
    simp only [List.singleton_append] at h2
    rw [h2]
    simp

/-- C8: for every non-nil identifier list, `MarshalJSON` writes the `ids`
field as `[`, the decimal identifiers in their order separated by single
commas, `]`, and copies the type and the two dates into their fields. -/
theorem marshalJSON_ids_array (ids : List Nat) (type fromDate toDate : List Char) :
    MarshalJSON ⟨some ids, type, fromDate, toDate⟩
      = "\x7b\"ids\": ".toList ++
          ('[' :: (List.intercalate [','] (ids.map decimal) ++ [']'])) ++
          ", \"type\": \"".toList ++ type ++
          "\",\"fromDate\": \"".toList ++ fromDate ++
          "\", \"toDate\": \"".toList ++ toDate ++ "\"\x7d".toList := by
  unfold MarshalJSON
  simp only []
  have h : ",".toList = [','] := rfl
  rw [h, join_fields_sprintBytes]

/-! ## The string functions -/

/-- `strings.Trim(s, " ")` removes a run of spaces at each end and nothing
else: what is left neither starts nor ends with a space. -/
theorem stringsTrim_spec (s : List Char) :
    ∃ a b : List Char, s = a ++ stringsTrim s ++ b ∧
      (∀ c ∈ a, c = ' ') ∧ (∀ c ∈ b, c = ' ') ∧
      (stringsTrim s).head? ≠ some ' ' ∧ (stringsTrim s).getLast? ≠ some ' ' := by
  have hd : ∀ l : List Char, (l.dropWhile (fun c => decide (c = ' '))).head? ≠ some ' ' := by
    intro l h
    have := List.head?_dropWhile_not (fun c => decide (c = ' ')) l
    rw [h] at this
    simp at this
  have ht : ∀ (l : List Char), ∀ c ∈ l.takeWhile (fun c => decide (c = ' ')), c = ' ' := by
    intro l c hc
    simpa using List.mem_takeWhile_imp hc
  have h2 : (s.dropWhile (fun c => decide (c = ' '))) = stringsTrim s ++
      (((s.dropWhile (fun c => decide (c = ' '))).reverse.takeWhile
        (fun c => decide (c = ' '))).reverse) := by
    unfold stringsTrim
    rw [← List.reverse_append, List.takeWhile_append_dropWhile, List.reverse_reverse]
  refine ⟨s.takeWhile (fun c => decide (c = ' ')),
    ((s.dropWhile (fun c => decide (c = ' '))).reverse.takeWhile
      (fun c => decide (c = ' '))).reverse, ?_, ht s, ?_, ?_, ?_⟩
  · rw [List.append_assoc, ← h2, List.takeWhile_append_dropWhile]
  · intro c hc
    exact ht _ c (List.mem_reverse.1 hc)
  · intro h
    apply hd s
    rw [h2, List.head?_append, h]
    rfl
  · unfold stringsTrim
    rw [List.getLast?_reverse]
    exact hd _

/-- `strings.Split(s, sep)` cuts `s` at every separator: the parts contain no
separator and, joined by the separator, give `s` back. -/
theorem stringsSplit_spec (sep : Char) (s : List Char) :
    stringsSplit sep s ≠ [] ∧ (∀ w ∈ stringsSplit sep s, sep ∉ w) ∧
      List.intercalate [sep] (stringsSplit sep s) = s := by
  induction s with
  | nil => simp [stringsSplit, List.intercalate, List.intersperse]
  | cons c cs ih =>
    obtain ⟨h1, h2, h3⟩ := ih
    unfold stringsSplit
    by_cases hc : c = sep
    · rw [if_pos hc]
      refine ⟨List.cons_ne_nil _ _, ?_, ?_⟩
      · intro w hw
        rcases List.mem_cons.1 hw with h | h
        · rw [h]; exact List.not_mem_nil _
        · exact h2 w h
      · cases hs : stringsSplit sep cs with
        | nil => exact absurd hs h1
        | cons w ws =>
          rw [hs] at h3
          rw [intercalate_cons_cons, h3, hc]
          rfl
    · rw [if_neg hc]
      cases hs : stringsSplit sep cs with
      | nil => exact absurd hs h1
      | cons w ws =>
        rw [hs] at h2 h3
        simp only []
        refine ⟨List.cons_ne_nil _ _, ?_, ?_⟩
        · intro x hx
          rcases List.mem_cons.1 hx with h | h
          · rw [h]
            intro hm
            rcases List.mem_cons.1 hm with h4 | h4
            · exact hc h4.symm
            · exact h2 w (List.mem_cons_self _ _) h4
          · exact h2 x (List.mem_cons_of_mem _ h)
        · have := intercalate_append_head [sep] [c] w ws
          simp only [List.singleton_append] at this
          rw [this, h3]

/-! ## Labels -/

theorem find_labelStep_of_ne (labels : GoMap (List Char) (List Char)) (seg key : List Char)
    (h : ∀ k v, stringsSplit '=' seg = [k, v] → stringsTrim k ≠ key) :
    GoMap.find (labelStep labels seg) key = GoMap.find labels key := by
  unfold labelStep
  simp only []
  split
  · rename_i k v hkv
    exact GoMap.find_store_ne _ _ _ _ (h k v hkv)
  · rfl

theorem find_labelStep_same (labels : GoMap (List Char) (List Char)) (seg k v : List Char)
    (h : stringsSplit '=' seg = [k, v]) :
    GoMap.find (labelStep labels seg) (stringsTrim k) = some (stringsTrim v) := by
  unfold labelStep
  simp only [h]
  exact GoMap.find_store_same _ _ _

theorem find_foldl_labelStep_of_ne (segs : List (List Char)) (key : List Char) :
    ∀ labels : GoMap (List Char) (List Char),
      (∀ seg ∈ segs, ∀ k v, stringsSplit '=' seg = [k, v] → stringsTrim k ≠ key) →
      GoMap.find (segs.foldl labelStep labels) key = GoMap.find labels key := by
  induction segs with
  | nil => intro labels _; rfl
  | cons seg segs ih =>
    intro labels h
    rw [List.foldl_cons, ih _ (fun s hs => h s (List.mem_cons_of_mem _ hs)),
      find_labelStep_of_ne labels seg key (h seg (List.mem_cons_self _ _))]

theorem find_labelStep_isSome (labels : GoMap (List Char) (List Char)) (seg key : List Char)
    (h : ∃ v, GoMap.find labels key = some v) :
    ∃ v, GoMap.find (labelStep labels seg) key = some v := by
  unfold labelStep
  simp only []
  split
  · rename_i k v _
    by_cases hk : stringsTrim k = key
    · subst hk
      exact ⟨_, GoMap.find_store_same _ _ _⟩
    · rw [GoMap.find_store_ne _ _ _ _ hk]
      exact h
  · exact h

theorem find_foldl_labelStep_isSome (segs : List (List Char)) (key : List Char) :
    ∀ labels : GoMap (List Char) (List Char), (∃ v, GoMap.find labels key = some v) →
      ∃ v, GoMap.find (segs.foldl labelStep labels) key = some v := by
  induction segs with
  | nil => intro labels h; exact h
  | cons seg segs ih =>
    intro labels h
    rw [List.foldl_cons]
    exact ih _ (find_labelStep_isSome labels seg key h)

/-- C9 (as the code has it): `Labels()` always has the keys `name` and `id`;
`name` is mapped to `Name` and `id` to the decimal `SlaveID` when no segment
of `Comment` defines that key; and for every comma-separated segment with
exactly one `=`, the key with surrounding spaces removed is mapped to the
value with surrounding spaces removed, when no later segment defines the same
key. -/
theorem labels_spec (s : Sensor) :
    (∃ v, GoMap.find s.Labels "name".toList = some v) ∧
    (∃ v, GoMap.find s.Labels "id".toList = some v) ∧
    ((∀ seg ∈ stringsSplit ',' s.Comment, ∀ k v, stringsSplit '=' seg = [k, v] →
        stringsTrim k ≠ "name".toList) →
      GoMap.find s.Labels "name".toList = some s.Name) ∧
    ((∀ seg ∈ stringsSplit ',' s.Comment, ∀ k v, stringsSplit '=' seg = [k, v] →
        stringsTrim k ≠ "id".toList) →
      GoMap.find s.Labels "id".toList = some (decimal s.SlaveID)) ∧
    (∀ (pre : List (List Char)) (seg : List Char) (post : List (List Char)) (k v : List Char),
      stringsSplit ',' s.Comment = pre ++ seg :: post →
      stringsSplit '=' seg = [k, v] →
      (∀ seg2 ∈ post, ∀ k2 v2, stringsSplit '=' seg2 = [k2, v2] →
        stringsTrim k2 ≠ stringsTrim k) →
      GoMap.find s.Labels (stringsTrim k) = some (stringsTrim v)) := by
  have hname : GoMap.find (GoMap.store (GoMap.store [] "name".toList s.Name) "id".toList
      (decimal s.SlaveID)) "name".toList = some s.Name := by
    rw [GoMap.find_store_ne _ _ _ _ (by decide), GoMap.find_store_same]
  have hid : GoMap.find (GoMap.store (GoMap.store [] "name".toList s.Name) "id".toList
      (decimal s.SlaveID)) "id".toList = some (decimal s.SlaveID) :=
    GoMap.find_store_same _ _ _
  refine ⟨?_, ?_, ?_, ?_, ?_⟩
  · exact find_foldl_labelStep_isSome _ _ _ ⟨_, hname⟩
  · exact find_foldl_labelStep_isSome _ _ _ ⟨_, hid⟩
  · intro h
    unfold Sensor.Labels
    simp only []
    rw [find_foldl_labelStep_of_ne _ _ _ h, hname]
  · intro h
    unfold Sensor.Labels
    simp only []
    rw [find_foldl_labelStep_of_ne _ _ _ h, hid]
  · intro pre seg post k v hsplit hkv hpost
    unfold Sensor.Labels
    simp only []
    rw [hsplit, List.foldl_append, List.foldl_cons, find_foldl_labelStep_of_ne _ _ _ hpost]
    exact find_labelStep_same _ seg k v hkv

/-- The sensor of the repository's test `TestSensorTags` has exactly the five
labels the test expects, and the general statement holds for it. -/
theorem labels_spec_witness :
    Sensor.Labels ⟨"My Room".toList, "location=bath ,level =5, color=yellow ".toList,
        false, 3, 0, 0, []⟩
      = [("name".toList, "My Room".toList), ("id".toList, "3".toList),
          ("location".toList, "bath".toList), ("level".toList, "5".toList),
          ("color".toList, "yellow".toList)] ∧
    GoMap.find (Sensor.Labels ⟨"My Room".toList,
        "location=bath ,level =5, color=yellow ".toList, false, 3, 0, 0, []⟩) "level".toList
      = some "5".toList :=
  ⟨by decide,
    (labels_spec ⟨"My Room".toList, "location=bath ,level =5, color=yellow ".toList,
        false, 3, 0, 0, []⟩).2.2.2.2
      ["location=bath ".toList] "level =5".toList [" color=yellow ".toList]
      "level ".toList "5".toList (by decide) (by decide)
      (by
        intro seg2 hseg k2 v2 hs
        rw [List.mem_singleton] at hseg
        subst hseg
        have h1 : stringsSplit '=' " color=yellow ".toList
            = [" color".toList, "yellow ".toList] := by decide
        rw [h1] at hs
        injection hs with hk _
        rw [← hk]
        decide)⟩

/-- C9, counterexample: a `Comment` segment `name=B` replaces the sensor's
name in the labels, and a tab around a value is kept: only spaces are removed. -/
theorem labels_counterexample :
    GoMap.find (Sensor.Labels ⟨"A".toList, "name=B".toList, false, 3, 0, 0, []⟩) "name".toList
      = some "B".toList ∧
    "B".toList ≠ (Sensor.mk "A".toList "name=B".toList false 3 0 0 []).Name ∧
    GoMap.find (Sensor.Labels ⟨"A".toList, "k=\tv".toList, false, 3, 0, 0, []⟩) "k".toList
      = some "\tv".toList := by
  decide

end Wirelesstags
